import Mathlib

/-!
Manacher's algorithm (`src/manacher.cpp`)

A shallow embedding of the function `manacher` and a verification of its contract.

Modelling conventions.

* `std::string` is a `List Char`; the delimiter is the character `'#'`, which the input may
  contain as well.
* C++ `int` is a 32-bit two's complement integer. Values are carried in `Int`, and the result
  of every `int` operation of the source, as well as the narrowing `int n = t.length()`, passes
  through `wrap32`: arithmetic wraps around modulo `2^32`, as the compiled code does. For inputs shorter than `2^30` symbols the theorems show that the wraps
  are the identity wherever the value is used; `2 * center` alone may wrap, for inputs longer
  than `2^29`, and then either `mirror` is not read or the subtraction of `i` wraps back.
* `std::vector<int> p(n, 0)` throws `std::length_error` when the `int` count is negative
  (it is converted to an unsigned size beyond the maximal one): the fault `lengthError`.
* Memory allocation is taken to succeed: `std::bad_alloc` is not modelled.
* Every subscript `t[k]`, `p[k]` is a checked read or write: an index outside the container is
  the fault `outOfRange`, and so is the exception thrown by `substr`.
* The two loops are structurally recursive on a fuel counter; running out of fuel is the fault
  `fuelExhausted`. The theorems show that it never occurs.
-/

namespace Manacher

/-! ## Embedding of the source -/

/-- Ways in which a run of the embedded program can fail to produce a value. -/
inductive Fault where
  | outOfRange
  | lengthError
  | fuelExhausted
  deriving DecidableEq

/-- The value of a 32-bit two's complement `int` that holds the integer `x` modulo `2^32`. -/
def wrap32 (x : Int) : Int := (x + 2147483648) % 4294967296 - 2147483648

/-- Checked subscript read `xs[i]` with an `int` index. -/
def readAt {α : Type} (xs : List α) (i : Int) : Except Fault α :=
  if 0 ≤ i then
    match xs[i.toNat]? with
    | some x => .ok x
    | none => .error .outOfRange
  else .error .outOfRange

/-- Checked subscript write `xs[i] = v` with an `int` index. -/
def writeAt {α : Type} (xs : List α) (i : Int) (v : α) : Except Fault (List α) :=
  if 0 ≤ i ∧ i < (xs.length : Int) then .ok (xs.set i.toNat v) else .error .outOfRange

/-- Lines 25-29: `t = "#"; for (char c : s) { t += c; t += '#'; }`. -/
def transform (s : List Char) : List Char :=
  s.foldl (fun t c => (t ++ [c]) ++ ['#']) ['#']

/-- The mutable variables of the scan: the radius vector `p`, the window `center`, `right`
and the tracker `maxLen`, `centerIndex` (lines 34-46). -/
structure ScanState where
  p : List Int
  center : Int
  right : Int
  maxLen : Int
  centerIndex : Int
  deriving DecidableEq

/-- Lines 59-61: the expand loop
`while (i + (1 + p[i]) < n && i - (1 + p[i]) >= 0 && t[i + (1 + p[i])] == t[i - (1 + p[i])]) p[i]++;`
The two bounds tests are evaluated before the two reads of `t` (short-circuit `&&`). -/
def expandLoop (t : List Char) (n i : Int) : Nat → List Int → Except Fault (List Int)
  | 0, _ => .error .fuelExhausted
  | fuel + 1, p => do
    let pi ← readAt p i
    if wrap32 (i + wrap32 (1 + pi)) < n ∧ wrap32 (i - wrap32 (1 + pi)) ≥ 0 then
      let a ← readAt t (wrap32 (i + wrap32 (1 + pi)))
      let b ← readAt t (wrap32 (i - wrap32 (1 + pi)))
      if a = b then
        let p' ← writeAt p i (wrap32 (pi + 1))
        expandLoop t n i fuel p'
      else pure p
    else pure p

/-- Lines 51-56: `mirror = 2 * center - i; if (i < right) p[i] = std::min(right - i, p[mirror]);`
The read of `p[mirror]` happens only under the guard. -/
def seed (st : ScanState) (i : Int) : Except Fault (List Int) :=
  let mirror := wrap32 (wrap32 (2 * st.center) - i)
  if i < st.right then do
    let pm ← readAt st.p mirror
    writeAt st.p i (min (wrap32 (st.right - i)) pm)
  else pure st.p

/-- Lines 64-67: `if (i + p[i] > right) { center = i; right = i + p[i]; }` with `pi = p[i]`. -/
def updateWindow (st : ScanState) (i pi : Int) : ScanState :=
  if wrap32 (i + pi) > st.right then { st with center := i, right := wrap32 (i + pi) } else st

/-- Lines 70-73: `if (p[i] > maxLen) { maxLen = p[i]; centerIndex = i; }` with `pi = p[i]`. -/
def trackBest (st : ScanState) (i pi : Int) : ScanState :=
  if pi > st.maxLen then { st with maxLen := pi, centerIndex := i } else st

/-- Lines 50-73: the body of the scan loop at index `i`. -/
def scanBody (t : List Char) (n i : Int) (st : ScanState) : Except Fault ScanState := do
  let p1 ← seed st i
  let p2 ← expandLoop t n i t.length p1
  let pi ← readAt p2 i
  pure (trackBest (updateWindow { st with p := p2 } i pi) i pi)

/-- Line 49: `for (int i = 1; i < n - 1; i++) { body }`, started at `i`. -/
def scanLoop (t : List Char) (n : Int) : Nat → Int → ScanState → Except Fault ScanState
  | 0, _, _ => .error .fuelExhausted
  | fuel + 1, i, st =>
    if i < wrap32 (n - 1) then do
      let st' ← scanBody t n i st
      scanLoop t n fuel (wrap32 (i + 1)) st'
    else pure st

/-- Lines 34-46: `std::vector<int> p(n, 0);` and the four zero-initialised variables. The
`int` count `n` is converted to the unsigned size type: a negative `n` becomes a size beyond
the maximal one and the constructor throws `std::length_error`. -/
def initState (n : Int) : Except Fault ScanState :=
  if n < 0 then .error .lengthError else .ok ⟨List.replicate n.toNat 0, 0, 0, 0, 0⟩

/-- Lines 25-74: transform the input, narrow the length of `t` to the `int n` (line 31), build
the initial state and run the scan; the result is the state at the end of the scan loop. -/
def scan (s : List Char) : Except Fault ScanState := do
  let st ← initState (wrap32 (transform s).length)
  scanLoop (transform s) (wrap32 (transform s).length) (transform s).length 1 st

/-- Line 77: `int start = (centerIndex - maxLen) / 2;` (C++ division truncates). -/
def startOf (st : ScanState) : Int := (wrap32 (st.centerIndex - st.maxLen)).tdiv 2

/-- The call `s.substr(pos, len)` with `int` arguments converted to `size_t`: a position that is
negative (hence huge after conversion) or beyond the size throws; a length that reaches beyond
the end (or is negative, hence huge) is truncated to the rest of the string. -/
def substr (s : List Char) (pos len : Int) : Except Fault (List Char) :=
  if 0 ≤ pos ∧ pos ≤ (s.length : Int) then
    .ok (if 0 ≤ len then (s.drop pos.toNat).take len.toNat else s.drop pos.toNat)
  else .error .outOfRange

/-- Lines 23-79: the function `manacher`. -/
def manacher (s : List Char) : Except Fault (List Char) := do
  let st ← scan s
  substr s (startOf st) st.maxLen

/-! ## Iterations of the scan and the comparison counter -/

/-- The scan state after the first `k` iterations of the scan loop (line 49), that is, at the
head of the iteration with index `i = k + 1`: the loop body is run at `i = 1, 2, ..., k`. It
is the state of a run of the code as long as `k + 1 ≤ n - 1`. -/
def stateAfter (t : List Char) : Nat → Except Fault ScanState
  | 0 => initState (wrap32 t.length)
  | k + 1 => do
    let st ← stateAfter t k
    scanBody t (wrap32 t.length) ((k : Int) + 1) st

/-- The expand loop of lines 59-61 with a ghost counter `cnt` that is incremented each time the
symbol comparison `t[i + (1 + p[i])] == t[i - (1 + p[i])]` is evaluated (that is, each time
both bounds tests have passed). -/
def expandLoopC (t : List Char) (n i : Int) : Nat → List Int → Nat → Except Fault (List Int × Nat)
  | 0, _, _ => .error .fuelExhausted
  | fuel + 1, p, cnt => do
    let pi ← readAt p i
    if wrap32 (i + wrap32 (1 + pi)) < n ∧ wrap32 (i - wrap32 (1 + pi)) ≥ 0 then
      let a ← readAt t (wrap32 (i + wrap32 (1 + pi)))
      let b ← readAt t (wrap32 (i - wrap32 (1 + pi)))
      if a = b then
        let p' ← writeAt p i (wrap32 (pi + 1))
        expandLoopC t n i fuel p' (cnt + 1)
      else pure (p, cnt + 1)
    else pure (p, cnt)

/-- The loop body of lines 50-73 with the ghost comparison counter threaded through. -/
def scanBodyC (t : List Char) (n i : Int) (st : ScanState) (cnt : Nat) :
    Except Fault (ScanState × Nat) := do
  let p1 ← seed st i
  let r ← expandLoopC t n i t.length p1 cnt
  let pi ← readAt r.1 i
  pure (trackBest (updateWindow { st with p := r.1 } i pi) i pi, r.2)

/-- The scan loop of line 49 with the ghost comparison counter threaded through. -/
def scanLoopC (t : List Char) (n : Int) :
    Nat → Int → ScanState → Nat → Except Fault (ScanState × Nat)
  | 0, _, _, _ => .error .fuelExhausted
  | fuel + 1, i, st, cnt =>
    if i < wrap32 (n - 1) then do
      let r ← scanBodyC t n i st cnt
      scanLoopC t n fuel (wrap32 (i + 1)) r.1 r.2
    else pure (st, cnt)

/-- The scan of lines 25-74 together with the total number of symbol comparisons it makes. -/
def scanC (s : List Char) : Except Fault (ScanState × Nat) := do
  let st ← initState (wrap32 (transform s).length)
  scanLoopC (transform s) (wrap32 (transform s).length) (transform s).length 1 st 0

/-! ## Specification vocabulary -/

/-- Total subscript used in statements: the element at an `int` index, a default outside. -/
def nth {α : Type} [Inhabited α] (xs : List α) (j : Int) : α := xs.getD j.toNat default

/-- The contiguous slice `s[a .. b)`. -/
def slice (s : List Char) (a b : Nat) : List Char := (s.drop a).take (b - a)

/-- A string is a palindrome when it equals its reverse. -/
def IsPalindrome (w : List Char) : Prop := w.reverse = w

instance (w : List Char) : Decidable (IsPalindrome w) := by
  unfold IsPalindrome; infer_instance

/-- The segment `t[c - r .. c + r]` lies within the first `n` positions of `t` and is symmetric
about `c`. -/
def PalAt (t : List Char) (n c r : Int) : Prop :=
  0 ≤ r ∧ r ≤ c ∧ c + r < n ∧
    ∀ k : Int, 1 ≤ k → k ≤ r → nth t (c + k) = nth t (c - k)

/-- The segment of radius `r` about `c` is symmetric and cannot be extended by one within the
first `n` positions of `t`. -/
def MaxPal (t : List Char) (n c r : Int) : Prop :=
  PalAt t n c r ∧
    (c + (r + 1) < n → r + 1 ≤ c → nth t (c + (r + 1)) ≠ nth t (c - (r + 1)))

/-- Index form of "the slice `s[a .. b)` is a palindrome". -/
def PalIdx (s : List Char) (a b : Nat) : Prop :=
  ∀ u v : Nat, a ≤ u → u < b → u + v + 1 = a + b → s[u]? = s[v]?

/-- The state in which the scan loop is entered when the radius vector has `n` entries. -/
def zeroState (n : Int) : ScanState := ⟨List.replicate n.toNat 0, 0, 0, 0, 0⟩

/-- Loop invariant of the scan over the first `n` positions of `t`, at the head of the
iteration with index `i`. -/
structure Inv (t : List Char) (n i : Int) (st : ScanState) : Prop where
  fits : n ≤ (t.length : Int)
  small : n ≤ 2147483647
  len : (st.p.length : Int) = n
  radii : ∀ j : Int, 1 ≤ j → j < i → MaxPal t n j (nth st.p j)
  fresh : ∀ j : Int, 0 ≤ j → (j = 0 ∨ i ≤ j) → nth st.p j = 0
  center_lo : 0 ≤ st.center
  center_hi : st.center < i
  right_eq : st.right = st.center + nth st.p st.center
  reach : ∀ j : Int, 1 ≤ j → j < i → j + nth st.p j ≤ st.right
  best_lo : 0 ≤ st.centerIndex
  best_hi : st.centerIndex < i
  best_eq : nth st.p st.centerIndex = st.maxLen
  best_max : ∀ j : Int, 1 ≤ j → j < i → nth st.p j ≤ st.maxLen
  best_first : ∀ j : Int, 1 ≤ j → j < st.centerIndex → nth st.p j < st.maxLen

/-! ## The quadratic reference -/

/-- Expand around a center: grow the window `s[lo .. hi)` by one symbol on each side while both
neighbours exist and are equal. -/
def expandAround (s : List Char) : Nat → Nat → Nat × Nat
  | 0, hi => (0, hi)
  | lo + 1, hi =>
    if hi < s.length ∧ s[lo]? = s[hi]? then expandAround s lo (hi + 1) else (lo + 1, hi)

/-- The window the reference starts from at its `c`-th center, counted from the left: the
symbol `s[c / 2]` for even `c`, the gap after that symbol for odd `c`. -/
def centerWindow (s : List Char) (c : Nat) : Nat × Nat :=
  if c % 2 = 0 then expandAround s (c / 2) (c / 2 + 1)
  else expandAround s (c / 2 + 1) (c / 2 + 1)

/-- One step of the reference: keep the palindrome found at center `c` when it is strictly
longer than the best so far; `best` is a pair (start offset, length). -/
def bruteStep (s : List Char) (best : Nat × Nat) (c : Nat) : Nat × Nat :=
  let w := centerWindow s c
  if w.2 - w.1 > best.2 then (w.1, w.2 - w.1) else best

/-- The brute-force reference: expand around every center of `s` (each symbol and each gap
between two symbols) from left to right, keeping the first palindrome of strictly greater
length. -/
def bruteForce (s : List Char) : List Char :=
  let best := (List.range (2 * s.length - 1)).foldl (bruteStep s) (0, 0)
  (s.drop best.1).take best.2

/-! ## Checked reads and writes, and the 32-bit range -/

theorem wrap32_eq {x : Int} (h1 : -2147483648 ≤ x) (h2 : x ≤ 2147483647) : wrap32 x = x := by
  unfold wrap32; omega

theorem wrap32_mirror {c i : Int} (h1 : 0 ≤ 2 * c - i) (h2 : 2 * c - i ≤ 2147483647) :
    wrap32 (wrap32 (2 * c) - i) = 2 * c - i := by
  unfold wrap32; omega

theorem wrap32_length (m : Nat) :
    wrap32 ((2 * m + 1 : Nat) : Int) % 2 = 1 ∧ wrap32 ((2 * m + 1 : Nat) : Int) ≤ 2147483647 ∧
    wrap32 ((2 * m + 1 : Nat) : Int) ≤ ((2 * m + 1 : Nat) : Int) ∧
    (m < 1073741824 → wrap32 ((2 * m + 1 : Nat) : Int) = ((2 * m + 1 : Nat) : Int)) := by
  unfold wrap32
  push_cast
  omega

theorem readAt_ok {α : Type} [Inhabited α] (xs : List α) (i : Int) (h0 : 0 ≤ i)
    (h1 : i < (xs.length : Int)) : readAt xs i = .ok (nth xs i) := by
  have hlt : i.toNat < xs.length := by omega
  simp [readAt, nth, h0, List.getElem?_eq_getElem hlt, List.getD_eq_getElem?_getD]

theorem writeAt_ok {α : Type} (xs : List α) (i : Int) (v : α) (h0 : 0 ≤ i)
    (h1 : i < (xs.length : Int)) : writeAt xs i v = .ok (xs.set i.toNat v) := by
  simp [writeAt, h0, h1]

theorem nth_set {α : Type} [Inhabited α] (xs : List α) (i j : Int) (v : α) (h0 : 0 ≤ i)
    (h1 : i < (xs.length : Int)) (hj : 0 ≤ j) :
    nth (xs.set i.toNat v) j = if j = i then v else nth xs j := by
  have hlt : i.toNat < xs.length := by omega
  unfold nth
  by_cases h : j = i
  · subst h
    simp [List.getD_eq_getElem?_getD, List.getElem?_set, hlt]
  · have : i.toNat ≠ j.toNat := by omega
    simp [List.getD_eq_getElem?_getD, List.getElem?_set, this, h]

theorem readAt_ok_iff {α : Type} (xs : List α) (i : Int) :
    (∃ x, readAt xs i = .ok x) ↔ 0 ≤ i ∧ i < (xs.length : Int) := by
  constructor
  · rintro ⟨x, hx⟩
    unfold readAt at hx
    split_ifs at hx with h0
    by_cases hlt : i.toNat < xs.length
    · exact ⟨h0, by omega⟩
    · rw [List.getElem?_eq_none (by omega)] at hx
      simp at hx
  · rintro ⟨h0, h1⟩
    have hlt : i.toNat < xs.length := by omega
    exact ⟨xs[i.toNat], by simp [readAt, h0, List.getElem?_eq_getElem hlt]⟩

/-! ## Symmetric segments of the transformed string -/

theorem PalAt.zero (t : List Char) (n c : Int) (h0 : 0 ≤ c) (h1 : c < n) : PalAt t n c 0 :=
  ⟨le_refl 0, h0, by omega, fun k hk1 hk2 => by omega⟩

theorem PalAt.mono {t : List Char} {n c r r' : Int} (h : PalAt t n c r) (h0 : 0 ≤ r')
    (hr : r' ≤ r) : PalAt t n c r' := by
  obtain ⟨h1, h2, h3, h4⟩ := h
  exact ⟨h0, by omega, by omega, fun k hk1 hk2 => h4 k hk1 (by omega)⟩

theorem PalAt.succ {t : List Char} {n c r : Int} (h : PalAt t n c r)
    (hb1 : c + (r + 1) < n) (hb2 : r + 1 ≤ c)
    (heq : nth t (c + (r + 1)) = nth t (c - (r + 1))) : PalAt t n c (r + 1) := by
  obtain ⟨h1, h2, h3, h4⟩ := h
  refine ⟨by omega, hb2, hb1, fun k hk1 hk2 => ?_⟩
  by_cases hk : k = r + 1
  · subst hk; exact heq
  · exact h4 k hk1 (by omega)

theorem MaxPal.le_of_palAt {t : List Char} {n c r r' : Int} (hm : MaxPal t n c r)
    (hp : PalAt t n c r') : r' ≤ r := by
  by_contra hlt
  obtain ⟨h1, h2, h3, h4⟩ := hp
  have hr0 : 0 ≤ r := hm.1.1
  exact hm.2 (by omega) (by omega) (h4 (r + 1) (by omega) (by omega))

theorem MaxPal.unique {t : List Char} {n c r r' : Int} (h : MaxPal t n c r)
    (h' : MaxPal t n c r') : r = r' :=
  le_antisymm (h'.le_of_palAt h.1) (h.le_of_palAt h'.1)

theorem PalAt.reflect {t : List Char} {n c R : Int} (hc : PalAt t n c R) (x : Int)
    (h1 : c - R ≤ x) (h2 : x ≤ c + R) : nth t x = nth t (2 * c - x) := by
  obtain ⟨_, _, _, c4⟩ := hc
  rcases lt_trichotomy x c with h | h | h
  · have hB := c4 (c - x) (by omega) (by omega)
    have e3 : c + (c - x) = 2 * c - x := by ring
    have e4 : c - (c - x) = x := by ring
    rw [e3, e4] at hB
    exact hB.symm
  · have e5 : 2 * c - x = x := by omega
    rw [e5]
  · have hB := c4 (x - c) (by omega) (by omega)
    have e3 : c + (x - c) = x := by ring
    have e4 : c - (x - c) = 2 * c - x := by ring
    rw [e3, e4] at hB
    exact hB

/-! ## The expand loop -/

theorem expandLoop_step (t : List Char) (n i : Int) (hn : n ≤ (t.length : Int))
    (hs : n ≤ 2147483647) (hi0 : 0 ≤ i) (hi1 : i < n) (fuel : Nat) (p : List Int)
    (hlen : (p.length : Int) = n) (hp0 : 0 ≤ nth p i) (hp1 : i + nth p i < n) :
    expandLoop t n i (fuel + 1) p =
      if i + (1 + nth p i) < n ∧ i - (1 + nth p i) ≥ 0 then
        if nth t (i + (1 + nth p i)) = nth t (i - (1 + nth p i)) then
          expandLoop t n i fuel (p.set i.toNat (nth p i + 1))
        else .ok p
      else .ok p := by
  have hread : readAt p i = .ok (nth p i) := readAt_ok p i hi0 (by omega)
  have hw1 : wrap32 (1 + nth p i) = 1 + nth p i := wrap32_eq (by omega) (by omega)
  have hw2 : wrap32 (i + (1 + nth p i)) = i + (1 + nth p i) := wrap32_eq (by omega) (by omega)
  have hw3 : wrap32 (i - (1 + nth p i)) = i - (1 + nth p i) := wrap32_eq (by omega) (by omega)
  have hw4 : wrap32 (nth p i + 1) = nth p i + 1 := wrap32_eq (by omega) (by omega)
  by_cases hb : i + (1 + nth p i) < n ∧ i - (1 + nth p i) ≥ 0
  · have ha : readAt t (i + (1 + nth p i)) = .ok (nth t (i + (1 + nth p i))) :=
      readAt_ok t _ (by omega) (by omega)
    have hbk : readAt t (i - (1 + nth p i)) = .ok (nth t (i - (1 + nth p i))) :=
      readAt_ok t _ (by omega) (by omega)
    have hw : writeAt p i (nth p i + 1) = .ok (p.set i.toNat (nth p i + 1)) :=
      writeAt_ok p i _ hi0 (by omega)
    by_cases heq : nth t (i + (1 + nth p i)) = nth t (i - (1 + nth p i))
    · simp only [expandLoop, hread, bind, Except.bind, hw1, hw2, hw3, hw4, if_pos hb, ha, hbk,
        if_pos heq, hw]
    · simp only [expandLoop, hread, bind, Except.bind, hw1, hw2, hw3, if_pos hb, ha, hbk,
        if_neg heq, pure, Except.pure]
  · simp only [expandLoop, hread, bind, Except.bind, hw1, hw2, hw3, if_neg hb, pure,
      Except.pure]

theorem expandLoopC_step (t : List Char) (n i : Int) (hn : n ≤ (t.length : Int))
    (hs : n ≤ 2147483647) (hi0 : 0 ≤ i) (hi1 : i < n) (fuel : Nat) (p : List Int) (cnt : Nat)
    (hlen : (p.length : Int) = n) (hp0 : 0 ≤ nth p i) (hp1 : i + nth p i < n) :
    expandLoopC t n i (fuel + 1) p cnt =
      if i + (1 + nth p i) < n ∧ i - (1 + nth p i) ≥ 0 then
        if nth t (i + (1 + nth p i)) = nth t (i - (1 + nth p i)) then
          expandLoopC t n i fuel (p.set i.toNat (nth p i + 1)) (cnt + 1)
        else .ok (p, cnt + 1)
      else .ok (p, cnt) := by
  have hread : readAt p i = .ok (nth p i) := readAt_ok p i hi0 (by omega)
  have hw1 : wrap32 (1 + nth p i) = 1 + nth p i := wrap32_eq (by omega) (by omega)
  have hw2 : wrap32 (i + (1 + nth p i)) = i + (1 + nth p i) := wrap32_eq (by omega) (by omega)
  have hw3 : wrap32 (i - (1 + nth p i)) = i - (1 + nth p i) := wrap32_eq (by omega) (by omega)
  have hw4 : wrap32 (nth p i + 1) = nth p i + 1 := wrap32_eq (by omega) (by omega)
  by_cases hb : i + (1 + nth p i) < n ∧ i - (1 + nth p i) ≥ 0
  · have ha : readAt t (i + (1 + nth p i)) = .ok (nth t (i + (1 + nth p i))) :=
      readAt_ok t _ (by omega) (by omega)
    have hbk : readAt t (i - (1 + nth p i)) = .ok (nth t (i - (1 + nth p i))) :=
      readAt_ok t _ (by omega) (by omega)
    have hw : writeAt p i (nth p i + 1) = .ok (p.set i.toNat (nth p i + 1)) :=
      writeAt_ok p i _ hi0 (by omega)
    by_cases heq : nth t (i + (1 + nth p i)) = nth t (i - (1 + nth p i))
    · simp only [expandLoopC, hread, bind, Except.bind, hw1, hw2, hw3, hw4, if_pos hb, ha, hbk,
        if_pos heq, hw]
    · simp only [expandLoopC, hread, bind, Except.bind, hw1, hw2, hw3, if_pos hb, ha, hbk,
        if_neg heq, pure, Except.pure]
  · simp only [expandLoopC, hread, bind, Except.bind, hw1, hw2, hw3, if_neg hb, pure,
      Except.pure]

theorem nth_set_self (p : List Int) (n i v : Int) (hi0 : 0 ≤ i) (hi1 : i < n)
    (hlen : (p.length : Int) = n) : nth (p.set i.toNat v) i = v := by
  rw [nth_set p i i v hi0 (by omega) hi0]; simp

theorem expandLoop_spec (t : List Char) (n i : Int) (hn : n ≤ (t.length : Int))
    (hs : n ≤ 2147483647) (hi0 : 0 ≤ i) (hi1 : i < n) :
    ∀ (fuel : Nat) (p : List Int), (p.length : Int) = n → PalAt t n i (nth p i) →
      i < (fuel : Int) + nth p i →
      ∃ p', expandLoop t n i fuel p = .ok p' ∧ (p'.length : Int) = n ∧
        MaxPal t n i (nth p' i) ∧ nth p i ≤ nth p' i ∧
        ∀ j : Int, 0 ≤ j → j ≠ i → nth p' j = nth p j := by
  intro fuel
  induction fuel with
  | zero =>
    intro p _ hp hf
    have := hp.2.1
    omega
  | succ fuel ih =>
    intro p hlen hp hf
    have hstep := expandLoop_step t n i hn hs hi0 hi1 fuel p hlen hp.1 hp.2.2.1
    by_cases hb : i + (1 + nth p i) < n ∧ i - (1 + nth p i) ≥ 0
    · by_cases heq : nth t (i + (1 + nth p i)) = nth t (i - (1 + nth p i))
      · rw [if_pos hb, if_pos heq] at hstep
        have hself := nth_set_self p n i (nth p i + 1) hi0 hi1 hlen
        have hp' : PalAt t n i (nth (p.set i.toNat (nth p i + 1)) i) := by
          rw [hself]
          refine hp.succ (by omega) (by omega) ?_
          have e1 : i + (nth p i + 1) = i + (1 + nth p i) := by ring
          have e2 : i - (nth p i + 1) = i - (1 + nth p i) := by ring
          rw [e1, e2]; exact heq
        obtain ⟨p', hrun, hlen', hmax, hle, hoth⟩ :=
          ih (p.set i.toNat (nth p i + 1)) (by simp [hlen]) hp'
            (by rw [hself]; push_cast at hf ⊢; omega)
        refine ⟨p', by rw [hstep]; exact hrun, hlen', hmax, by omega, fun j hj hne => ?_⟩
        rw [hoth j hj hne, nth_set p i j _ hi0 (by omega) hj]; simp [hne]
      · rw [if_pos hb, if_neg heq] at hstep
        refine ⟨p, hstep, hlen, ⟨hp, fun h1 h2 h3 => heq ?_⟩, le_refl _, fun _ _ _ => rfl⟩
        have e1 : i + (nth p i + 1) = i + (1 + nth p i) := by ring
        have e2 : i - (nth p i + 1) = i - (1 + nth p i) := by ring
        rw [← e1, ← e2]; exact h3
    · rw [if_neg hb] at hstep
      exact ⟨p, hstep, hlen, ⟨hp, fun h1 h2 _ => hb ⟨by omega, by omega⟩⟩, le_refl _,
        fun _ _ _ => rfl⟩

theorem expandLoop_of_maxPal (t : List Char) (n i : Int) (hn : n ≤ (t.length : Int))
    (hs : n ≤ 2147483647) (hi0 : 0 ≤ i) (hi1 : i < n) (p : List Int)
    (hlen : (p.length : Int) = n) (hm : MaxPal t n i (nth p i)) (fuel : Nat) :
    expandLoop t n i (fuel + 1) p = .ok p := by
  rw [expandLoop_step t n i hn hs hi0 hi1 fuel p hlen hm.1.1 hm.1.2.2.1]
  by_cases hb : i + (1 + nth p i) < n ∧ i - (1 + nth p i) ≥ 0
  · have hne : ¬ nth t (i + (1 + nth p i)) = nth t (i - (1 + nth p i)) := by
      have := hm.2 (by omega) (by omega)
      have e1 : i + (nth p i + 1) = i + (1 + nth p i) := by ring
      have e2 : i - (nth p i + 1) = i - (1 + nth p i) := by ring
      rw [e1, e2] at this
      exact this
    rw [if_pos hb, if_neg hne]
  · rw [if_neg hb]

theorem expandLoopC_spec (t : List Char) (n i : Int) (hn : n ≤ (t.length : Int))
    (hs : n ≤ 2147483647) (hi0 : 0 ≤ i) (hi1 : i < n) :
    ∀ (fuel : Nat) (p p' : List Int) (cnt : Nat), (p.length : Int) = n → 0 ≤ nth p i →
      i + nth p i < n → expandLoop t n i fuel p = .ok p' →
      ∃ c : Nat, expandLoopC t n i fuel p cnt = .ok (p', c) ∧
        (cnt : Int) + (nth p' i - nth p i) ≤ c ∧ (c : Int) ≤ cnt + (nth p' i - nth p i) + 1 := by
  intro fuel
  induction fuel with
  | zero =>
    intro p p' cnt _ _ _ hrun
    simp [expandLoop] at hrun
  | succ fuel ih =>
    intro p p' cnt hlen hp0 hp1 hrun
    rw [expandLoop_step t n i hn hs hi0 hi1 fuel p hlen hp0 hp1] at hrun
    rw [expandLoopC_step t n i hn hs hi0 hi1 fuel p cnt hlen hp0 hp1]
    by_cases hb : i + (1 + nth p i) < n ∧ i - (1 + nth p i) ≥ 0
    · by_cases heq : nth t (i + (1 + nth p i)) = nth t (i - (1 + nth p i))
      · rw [if_pos hb, if_pos heq] at hrun ⊢
        have hself := nth_set_self p n i (nth p i + 1) hi0 hi1 hlen
        obtain ⟨c, hc, h1, h2⟩ := ih (p.set i.toNat (nth p i + 1)) p' (cnt + 1)
          (by simp [hlen]) (by rw [hself]; omega) (by rw [hself]; omega) hrun
        refine ⟨c, hc, ?_, ?_⟩
        · rw [hself] at h1; push_cast at h1; omega
        · rw [hself] at h2; push_cast at h2; omega
      · rw [if_pos hb, if_neg heq] at hrun ⊢
        injection hrun with hrun
        subst hrun
        exact ⟨cnt + 1, rfl, by push_cast; omega, by push_cast; omega⟩
    · rw [if_neg hb] at hrun ⊢
      injection hrun with hrun
      subst hrun
      exact ⟨cnt, rfl, by omega, by omega⟩

theorem expandLoop_fuel (t : List Char) (n i : Int) (hn : n ≤ (t.length : Int))
    (hs : n ≤ 2147483647) (hi0 : 0 ≤ i) (hi1 : i < n) :
    ∀ (fuel : Nat) (p p' : List Int), (p.length : Int) = n → 0 ≤ nth p i →
      i + nth p i < n → expandLoop t n i fuel p = .ok p' →
      nth p i ≤ nth p' i ∧
      ∀ fuel' : Nat, nth p' i - nth p i < fuel' → expandLoop t n i fuel' p = .ok p' := by
  intro fuel
  induction fuel with
  | zero =>
    intro p p' _ _ _ hrun
    simp [expandLoop] at hrun
  | succ fuel ih =>
    intro p p' hlen hp0 hp1 hrun
    rw [expandLoop_step t n i hn hs hi0 hi1 fuel p hlen hp0 hp1] at hrun
    by_cases hb : i + (1 + nth p i) < n ∧ i - (1 + nth p i) ≥ 0
    · by_cases heq : nth t (i + (1 + nth p i)) = nth t (i - (1 + nth p i))
      · rw [if_pos hb, if_pos heq] at hrun
        have hself := nth_set_self p n i (nth p i + 1) hi0 hi1 hlen
        obtain ⟨h1, h2⟩ := ih (p.set i.toNat (nth p i + 1)) p' (by simp [hlen])
          (by rw [hself]; omega) (by rw [hself]; omega) hrun
        rw [hself] at h1 h2
        refine ⟨by omega, fun fuel' hf' => ?_⟩
        obtain ⟨f, rfl⟩ : ∃ f, fuel' = f + 1 := ⟨fuel' - 1, by omega⟩
        rw [expandLoop_step t n i hn hs hi0 hi1 f p hlen hp0 hp1, if_pos hb, if_pos heq]
        exact h2 f (by push_cast at hf'; omega)
      · rw [if_pos hb, if_neg heq] at hrun
        injection hrun with hrun
        subst hrun
        refine ⟨le_refl _, fun fuel' hf' => ?_⟩
        obtain ⟨f, rfl⟩ : ∃ f, fuel' = f + 1 := ⟨fuel' - 1, by omega⟩
        rw [expandLoop_step t n i hn hs hi0 hi1 f p hlen hp0 hp1, if_pos hb, if_neg heq]
    · rw [if_neg hb] at hrun
      injection hrun with hrun
      subst hrun
      refine ⟨le_refl _, fun fuel' hf' => ?_⟩
      obtain ⟨f, rfl⟩ : ∃ f, fuel' = f + 1 := ⟨fuel' - 1, by omega⟩
      rw [expandLoop_step t n i hn hs hi0 hi1 f p hlen hp0 hp1, if_neg hb]

/-! ## The seed taken from the mirrored index -/

theorem palAt_mirror {t : List Char} {n c R i rm : Int} (hc : PalAt t n c R) (hci : c < i)
    (hiR : i < c + R) (hm : PalAt t n (2 * c - i) rm) : PalAt t n i (min (c + R - i) rm) := by
  have r1 := fun x h1 h2 => hc.reflect x h1 h2
  obtain ⟨c1, c2, c3, c4⟩ := hc
  obtain ⟨m1, m2, m3, m4⟩ := hm
  refine ⟨by omega, by omega, by omega, fun k hk1 hk2 => ?_⟩
  have hA := r1 (i + k) (by omega) (by omega)
  have hB := r1 (i - k) (by omega) (by omega)
  have hC := m4 k hk1 (by omega)
  have e1 : 2 * c - (i + k) = 2 * c - i - k := by ring
  have e2 : 2 * c - (i - k) = 2 * c - i + k := by ring
  rw [e1] at hA
  rw [e2] at hB
  rw [hA, ← hC, hB]

theorem maxPal_mirror {t : List Char} {n c R i rm : Int} (hc : PalAt t n c R) (hci : c < i)
    (hm : MaxPal t n (2 * c - i) rm) (hlt : rm < c + R - i) : MaxPal t n i rm := by
  have hrm0 : 0 ≤ rm := hm.1.1
  have hRc : R ≤ c := hc.2.1
  have hcn : c + R < n := hc.2.2.1
  have hp := palAt_mirror hc hci (by omega) hm.1
  have e : min (c + R - i) rm = rm := by omega
  rw [e] at hp
  refine ⟨hp, fun hb1 hb2 heq => ?_⟩
  refine hm.2 (by omega) (by omega) ?_
  have r1 := hc.reflect (i + (rm + 1)) (by omega) (by omega)
  have r2 := hc.reflect (i - (rm + 1)) (by omega) (by omega)
  have e1 : 2 * c - (i + (rm + 1)) = 2 * c - i - (rm + 1) := by ring
  have e2 : 2 * c - (i - (rm + 1)) = 2 * c - i + (rm + 1) := by ring
  rw [e1] at r1
  rw [e2] at r2
  rw [← r1, ← r2]
  exact heq.symm

theorem Inv.center_pal {t : List Char} {n i : Int} {st : ScanState} (h : Inv t n i st)
    (hn : 0 < n) : PalAt t n st.center (nth st.p st.center) := by
  by_cases hc : st.center = 0
  · rw [h.fresh st.center h.center_lo (Or.inl hc), hc]
    exact PalAt.zero t n 0 (le_refl 0) hn
  · exact (h.radii st.center (by have := h.center_lo; omega) h.center_hi).1

theorem seed_spec {t : List Char} {n i : Int} {st : ScanState} (h : Inv t n i st) (hi1 : 1 ≤ i)
    (hi2 : i < n) :
    ∃ p1, seed st i = .ok p1 ∧ (p1.length : Int) = n ∧ PalAt t n i (nth p1 i) ∧
      (∀ j : Int, 0 ≤ j → j ≠ i → nth p1 j = nth st.p j) ∧
      (i < st.right → nth p1 i = min (st.right - i) (nth st.p (2 * st.center - i))) ∧
      (¬ i < st.right → p1 = st.p) := by
  have hsm := h.small
  have hlen := h.len
  by_cases hr : i < st.right
  · have hcp := h.center_pal (by omega)
    have hreq := h.right_eq
    have hclo := h.center_lo
    have hchi := h.center_hi
    have hcr : nth st.p st.center ≤ st.center := hcp.2.1
    have hcn : st.center + nth st.p st.center < n := hcp.2.2.1
    have hm1 : 1 ≤ 2 * st.center - i := by omega
    have hm2 : 2 * st.center - i < i := by omega
    have hmp := (h.radii _ hm1 hm2).1
    have hwm : wrap32 (wrap32 (2 * st.center) - i) = 2 * st.center - i :=
      wrap32_mirror (by omega) (by omega)
    have hwr : wrap32 (st.right - i) = st.right - i := wrap32_eq (by omega) (by omega)
    have hread : readAt st.p (2 * st.center - i) = .ok (nth st.p (2 * st.center - i)) :=
      readAt_ok _ _ (by omega) (by omega)
    have hw := writeAt_ok st.p i (min (st.right - i) (nth st.p (2 * st.center - i)))
      (by omega) (by omega)
    refine ⟨st.p.set i.toNat (min (st.right - i) (nth st.p (2 * st.center - i))),
      ?_, ?_, ?_, ?_, ?_, fun hn => absurd hr hn⟩
    · simp only [seed, if_pos hr, hwm, hwr, hread, bind, Except.bind]
      exact hw
    · simp [hlen]
    · rw [nth_set st.p i i _ (by omega) (by omega) (by omega), if_pos rfl]
      have := palAt_mirror hcp hchi (by omega) hmp
      have e : st.center + nth st.p st.center - i = st.right - i := by omega
      rw [e] at this
      exact this
    · intro j hj hne
      rw [nth_set st.p i j _ (by omega) (by omega) hj, if_neg hne]
    · intro _
      rw [nth_set st.p i i _ (by omega) (by omega) (by omega), if_pos rfl]
  · refine ⟨st.p, ?_, hlen, ?_, fun _ _ _ => rfl, fun hn => absurd hn hr, fun _ => rfl⟩
    · simp only [seed, if_neg hr, pure, Except.pure]
    · rw [h.fresh i (by omega) (Or.inr (le_refl i))]
      exact PalAt.zero t n i (by omega) hi2

/-! ## Window and tracker updates -/

@[simp] theorem updateWindow_p (st : ScanState) (i r : Int) : (updateWindow st i r).p = st.p := by
  unfold updateWindow; split_ifs <;> rfl

@[simp] theorem updateWindow_maxLen (st : ScanState) (i r : Int) :
    (updateWindow st i r).maxLen = st.maxLen := by
  unfold updateWindow; split_ifs <;> rfl

@[simp] theorem updateWindow_centerIndex (st : ScanState) (i r : Int) :
    (updateWindow st i r).centerIndex = st.centerIndex := by
  unfold updateWindow; split_ifs <;> rfl

@[simp] theorem trackBest_p (st : ScanState) (i r : Int) : (trackBest st i r).p = st.p := by
  unfold trackBest; split_ifs <;> rfl

@[simp] theorem trackBest_center (st : ScanState) (i r : Int) :
    (trackBest st i r).center = st.center := by
  unfold trackBest; split_ifs <;> rfl

@[simp] theorem trackBest_right (st : ScanState) (i r : Int) :
    (trackBest st i r).right = st.right := by
  unfold trackBest; split_ifs <;> rfl

theorem updateWindow_cases (st : ScanState) (i r : Int) (hw : wrap32 (i + r) = i + r) :
    (st.right < i + r ∧ (updateWindow st i r).center = i ∧ (updateWindow st i r).right = i + r) ∨
    (i + r ≤ st.right ∧ (updateWindow st i r).center = st.center ∧
      (updateWindow st i r).right = st.right) := by
  unfold updateWindow
  rw [hw]
  split_ifs with h
  · exact Or.inl ⟨h, rfl, rfl⟩
  · exact Or.inr ⟨by omega, rfl, rfl⟩

theorem trackBest_cases (st : ScanState) (i r : Int) :
    (st.maxLen < r ∧ (trackBest st i r).maxLen = r ∧ (trackBest st i r).centerIndex = i) ∨
    (r ≤ st.maxLen ∧ (trackBest st i r).maxLen = st.maxLen ∧
      (trackBest st i r).centerIndex = st.centerIndex) := by
  unfold trackBest
  split_ifs with h
  · exact Or.inl ⟨h, rfl, rfl⟩
  · exact Or.inr ⟨by omega, rfl, rfl⟩

/-! ## One iteration of the scan preserves the invariant -/

theorem scanBody_inv {t : List Char} {n i : Int} {st : ScanState} (h : Inv t n i st)
    (hi1 : 1 ≤ i) (hi2 : i < n - 1) :
    ∃ st', scanBody t n i st = .ok st' ∧ Inv t n (i + 1) st' ∧
      st' = trackBest (updateWindow { st with p := st'.p } i (nth st'.p i)) i (nth st'.p i) := by
  have hfit := h.fits
  have hsm := h.small
  obtain ⟨p1, hseed, hlen1, hpal1, hoth1, -, -⟩ := seed_spec h hi1 (by omega)
  obtain ⟨p2, hexp, hlen2, hmax, -, hoth2⟩ :=
    expandLoop_spec t n i hfit hsm (by omega) (by omega) t.length p1 hlen1 hpal1
      (by have := hpal1.1; omega)
  have hread : readAt p2 i = .ok (nth p2 i) := readAt_ok p2 i (by omega) (by omega)
  have hoth : ∀ j : Int, 0 ≤ j → j ≠ i → nth p2 j = nth st.p j := fun j hj hne => by
    rw [hoth2 j hj hne, hoth1 j hj hne]
  have hr0 : 0 ≤ nth p2 i := hmax.1.1
  have hrn : i + nth p2 i < n := hmax.1.2.2.1
  have hwi : wrap32 (i + nth p2 i) = i + nth p2 i := wrap32_eq (by omega) (by omega)
  refine ⟨trackBest (updateWindow { st with p := p2 } i (nth p2 i)) i (nth p2 i), ?_, ?_, ?_⟩
  · simp only [scanBody, hseed, hexp, hread, bind, Except.bind, pure, Except.pure]
  · have hW : (st.right < i + nth p2 i ∧
          (updateWindow { st with p := p2 } i (nth p2 i)).center = i ∧
          (updateWindow { st with p := p2 } i (nth p2 i)).right = i + nth p2 i) ∨
        (i + nth p2 i ≤ st.right ∧
          (updateWindow { st with p := p2 } i (nth p2 i)).center = st.center ∧
          (updateWindow { st with p := p2 } i (nth p2 i)).right = st.right) :=
      updateWindow_cases { st with p := p2 } i (nth p2 i) hwi
    have hT : (st.maxLen < nth p2 i ∧
          (trackBest (updateWindow { st with p := p2 } i (nth p2 i)) i (nth p2 i)).maxLen
            = nth p2 i ∧
          (trackBest (updateWindow { st with p := p2 } i (nth p2 i)) i (nth p2 i)).centerIndex
            = i) ∨
        (nth p2 i ≤ st.maxLen ∧
          (trackBest (updateWindow { st with p := p2 } i (nth p2 i)) i (nth p2 i)).maxLen
            = st.maxLen ∧
          (trackBest (updateWindow { st with p := p2 } i (nth p2 i)) i (nth p2 i)).centerIndex
            = st.centerIndex) := by
      have := trackBest_cases (updateWindow { st with p := p2 } i (nth p2 i)) i (nth p2 i)
      simpa only [updateWindow_maxLen, updateWindow_centerIndex] using this
    have hP : (trackBest (updateWindow { st with p := p2 } i (nth p2 i)) i (nth p2 i)).p = p2 := by
      simp only [trackBest_p, updateWindow_p]
    have hC : (trackBest (updateWindow { st with p := p2 } i (nth p2 i)) i (nth p2 i)).center =
        (updateWindow { st with p := p2 } i (nth p2 i)).center := trackBest_center _ _ _
    have hR : (trackBest (updateWindow { st with p := p2 } i (nth p2 i)) i (nth p2 i)).right =
        (updateWindow { st with p := p2 } i (nth p2 i)).right := trackBest_right _ _ _
    generalize trackBest (updateWindow { st with p := p2 } i (nth p2 i)) i (nth p2 i) = S
      at hT hP hC hR
    generalize updateWindow { st with p := p2 } i (nth p2 i) = W at hW hC hR
    have hclo := h.center_lo
    have hchi := h.center_hi
    have hblo := h.best_lo
    have hbhi := h.best_hi
    have hreq := h.right_eq
    have hbeq := h.best_eq
    have hcen : nth p2 st.center = nth st.p st.center := hoth _ hclo (by omega)
    have hbst : nth p2 st.centerIndex = nth st.p st.centerIndex := hoth _ hblo (by omega)
    refine
      { fits := hfit
        small := hsm
        len := by rw [hP]; exact hlen2
        radii := ?_
        fresh := ?_
        center_lo := ?_
        center_hi := ?_
        right_eq := ?_
        reach := ?_
        best_lo := ?_
        best_hi := ?_
        best_eq := ?_
        best_max := ?_
        best_first := ?_ }
    · intro j hj1 hj2
      rw [hP]
      by_cases hji : j = i
      · subst hji; exact hmax
      · rw [hoth j (by omega) hji]; exact h.radii j hj1 (by omega)
    · intro j hj0 hj
      rw [hP, hoth j hj0 (by omega)]
      exact h.fresh j hj0 (by omega)
    · rcases hW with ⟨_, e, _⟩ | ⟨_, e, _⟩ <;> omega
    · rcases hW with ⟨_, e, _⟩ | ⟨_, e, _⟩ <;> omega
    · rw [hP, hC, hR]
      rcases hW with ⟨_, e1, e2⟩ | ⟨_, e1, e2⟩
      · rw [e1, e2]
      · rw [e1, e2, hcen]; exact hreq
    · intro j hj1 hj2
      rw [hP, hR]
      by_cases hji : j = i
      · subst hji
        rcases hW with ⟨_, _, e2⟩ | ⟨hle, _, e2⟩ <;> omega
      · rw [hoth j (by omega) hji]
        have := h.reach j hj1 (by omega)
        rcases hW with ⟨hlt, _, e2⟩ | ⟨_, _, e2⟩ <;> omega
    · rcases hT with ⟨_, _, e⟩ | ⟨_, _, e⟩ <;> omega
    · rcases hT with ⟨_, _, e⟩ | ⟨_, _, e⟩ <;> omega
    · rw [hP]
      rcases hT with ⟨_, e1, e2⟩ | ⟨_, e1, e2⟩
      · rw [e1, e2]
      · rw [e1, e2, hbst]; exact hbeq
    · intro j hj1 hj2
      rw [hP]
      by_cases hji : j = i
      · subst hji
        rcases hT with ⟨_, e1, _⟩ | ⟨hle, e1, _⟩ <;> omega
      · rw [hoth j (by omega) hji]
        have := h.best_max j hj1 (by omega)
        rcases hT with ⟨hlt, e1, _⟩ | ⟨_, e1, _⟩ <;> omega
    · intro j hj1 hj2
      rw [hP]
      rcases hT with ⟨hlt, e1, e2⟩ | ⟨_, e1, e2⟩
      · rw [e2] at hj2
        rw [hoth j (by omega) (by omega), e1]
        have := h.best_max j hj1 hj2
        omega
      · rw [e2] at hj2
        rw [hoth j (by omega) (by omega), e1]
        exact h.best_first j hj1 hj2
  · simp only [trackBest_p, updateWindow_p]

/-! ## One iteration of the scan in detail -/

theorem scanBody_detail {t : List Char} {n i : Int} {st : ScanState} (h : Inv t n i st)
    (hi1 : 1 ≤ i) (hi2 : i < n - 1) :
    ∃ p1 p2 : List Int,
      seed st i = .ok p1 ∧ expandLoop t n i t.length p1 = .ok p2 ∧
      scanBody t n i st =
        .ok (trackBest (updateWindow { st with p := p2 } i (nth p2 i)) i (nth p2 i)) ∧
      Inv t n (i + 1) (trackBest (updateWindow { st with p := p2 } i (nth p2 i)) i (nth p2 i)) ∧
      (p1.length : Int) = n ∧ (p2.length : Int) = n ∧
      PalAt t n i (nth p1 i) ∧ MaxPal t n i (nth p2 i) ∧ nth p1 i ≤ nth p2 i ∧
      (∀ j : Int, 0 ≤ j → j ≠ i → nth p2 j = nth st.p j) ∧
      (i < st.right → nth p1 i = min (st.right - i) (nth st.p (2 * st.center - i))) ∧
      (¬ i < st.right → nth p1 i = 0) ∧
      (i < st.right → 1 ≤ 2 * st.center - i ∧ 2 * st.center - i < i) ∧
      (i < st.right → nth st.p (2 * st.center - i) < st.right - i → p2 = p1) := by
  have hfit := h.fits
  have hsm := h.small
  obtain ⟨p1, hseed, hlen1, hpal1, hoth1, hs1, hs2⟩ := seed_spec h hi1 (by omega)
  obtain ⟨p2, hexp, hlen2, hmax, hle, hoth2⟩ :=
    expandLoop_spec t n i hfit hsm (by omega) (by omega) t.length p1 hlen1 hpal1
      (by have := hpal1.1; omega)
  have hread : readAt p2 i = .ok (nth p2 i) := readAt_ok p2 i (by omega) (by omega)
  have hbody : scanBody t n i st =
      .ok (trackBest (updateWindow { st with p := p2 } i (nth p2 i)) i (nth p2 i)) := by
    simp only [scanBody, hseed, hexp, hread, bind, Except.bind, pure, Except.pure]
  obtain ⟨st', hbody', hinv', -⟩ := scanBody_inv h hi1 hi2
  have hst' : trackBest (updateWindow { st with p := p2 } i (nth p2 i)) i (nth p2 i) = st' := by
    rw [hbody] at hbody'
    injection hbody'
  have hcp := h.center_pal (by omega)
  have hreq := h.right_eq
  have hclo := h.center_lo
  have hchi := h.center_hi
  have hcr : nth st.p st.center ≤ st.center := hcp.2.1
  refine ⟨p1, p2, hseed, hexp, hbody, by rw [hst']; exact hinv', hlen1, hlen2, hpal1, hmax, hle,
    fun j hj hne => by rw [hoth2 j hj hne, hoth1 j hj hne], hs1, ?_, fun hr => by omega, ?_⟩
  · intro hr
    rw [hs2 hr]
    exact h.fresh i (by omega) (Or.inr (le_refl i))
  · intro hr hlt
    have hm1 : 1 ≤ 2 * st.center - i := by omega
    have hm2 : 2 * st.center - i < i := by omega
    have hmm := h.radii _ hm1 hm2
    have hmax1 : MaxPal t n i (nth p1 i) := by
      rw [hs1 hr]
      have e : min (st.right - i) (nth st.p (2 * st.center - i)) =
          nth st.p (2 * st.center - i) := by omega
      rw [e]
      exact maxPal_mirror hcp hchi hmm (by omega)
    obtain ⟨f, hf⟩ : ∃ f, t.length = f + 1 := ⟨t.length - 1, by omega⟩
    have := expandLoop_of_maxPal t n i hfit hsm (by omega) (by omega) p1 hlen1 hmax1 f
    rw [← hf, hexp] at this
    injection this

theorem scanBodyC_spec {t : List Char} {n i : Int} {st : ScanState} (h : Inv t n i st)
    (hi1 : 1 ≤ i) (hi2 : i < n - 1) (cnt : Nat) :
    ∃ (st' : ScanState) (c : Nat), scanBodyC t n i st cnt = .ok (st', c) ∧
      scanBody t n i st = .ok st' ∧ Inv t n (i + 1) st' ∧ st.right ≤ st'.right ∧
      cnt ≤ c ∧ (c : Int) ≤ cnt + (st'.right - st.right) + 1 := by
  have hfit := h.fits
  have hsm := h.small
  obtain ⟨p1, p2, hseed, hexp, hbody, hinv, hlen1, hlen2, hpal1, hmax, hle, -, hs1, hs2, hm, hc1⟩ :=
    scanBody_detail h hi1 hi2
  obtain ⟨c, hc, hlo, hhi⟩ := expandLoopC_spec t n i hfit hsm (by omega) (by omega) t.length
    p1 p2 cnt hlen1 hpal1.1 hpal1.2.2.1 hexp
  have hread : readAt p2 i = .ok (nth p2 i) := readAt_ok p2 i (by omega) (by omega)
  have hrn : i + nth p2 i < n := hmax.1.2.2.1
  have hr0 : 0 ≤ nth p2 i := hmax.1.1
  have hwi : wrap32 (i + nth p2 i) = i + nth p2 i := wrap32_eq (by omega) (by omega)
  have hW := updateWindow_cases { st with p := p2 } i (nth p2 i) hwi
  have hR := trackBest_right (updateWindow { st with p := p2 } i (nth p2 i)) i (nth p2 i)
  have hgain : nth p2 i - nth p1 i ≤
      (trackBest (updateWindow { st with p := p2 } i (nth p2 i)) i (nth p2 i)).right - st.right ∧
      st.right ≤
        (trackBest (updateWindow { st with p := p2 } i (nth p2 i)) i (nth p2 i)).right := by
    rw [hR]
    have hW' : (st.right < i + nth p2 i ∧
          (updateWindow { st with p := p2 } i (nth p2 i)).right = i + nth p2 i) ∨
        (i + nth p2 i ≤ st.right ∧
          (updateWindow { st with p := p2 } i (nth p2 i)).right = st.right) := by
      rcases hW with ⟨a, _, b⟩ | ⟨a, _, b⟩
      · exact Or.inl ⟨a, b⟩
      · exact Or.inr ⟨a, b⟩
    generalize (updateWindow { st with p := p2 } i (nth p2 i)).right = R at hW' ⊢
    by_cases hr : i < st.right
    · have e1 := hs1 hr
      by_cases hlt : nth st.p (2 * st.center - i) < st.right - i
      · have e2 := hc1 hr hlt
        rw [e2] at hW' ⊢
        rcases hW' with ⟨a, b⟩ | ⟨a, b⟩ <;> omega
      · rcases hW' with ⟨a, b⟩ | ⟨a, b⟩ <;> omega
    · have e1 := hs2 hr
      rcases hW' with ⟨a, b⟩ | ⟨a, b⟩ <;> omega
  refine ⟨_, c, ?_, hbody, hinv, hgain.2, by omega, by omega⟩
  simp only [scanBodyC, hseed, hc, hread, bind, Except.bind, pure, Except.pure]

/-! ## The scan loop -/

theorem wrap32_nat (L : Nat) :
    wrap32 (L : Int) ≤ 2147483647 ∧ -2147483648 ≤ wrap32 (L : Int) ∧
    (0 ≤ wrap32 (L : Int) → wrap32 (L : Int) ≤ (L : Int)) := by
  unfold wrap32
  omega

theorem initState_ok (n : Int) (h0 : 0 ≤ n) : initState n = .ok (zeroState n) := by
  have h : ¬ n < 0 := by omega
  simp only [initState, if_neg h, zeroState]

theorem initState_neg (n : Int) (h0 : n < 0) : initState n = .error .lengthError := by
  simp only [initState, if_pos h0]

theorem zeroState_inv (t : List Char) (n : Int) (hfit : n ≤ (t.length : Int))
    (hsm : n ≤ 2147483647) (h0 : 0 ≤ n) : Inv t n 1 (zeroState n) := by
  have hz : ∀ j : Int, nth (List.replicate n.toNat (0 : Int)) j = 0 := by
    intro j
    unfold nth
    rw [List.getD_eq_getElem?_getD, List.getElem?_replicate]
    split_ifs <;> rfl
  refine
    { fits := hfit
      small := hsm
      len := by simp only [zeroState, List.length_replicate]; omega
      radii := fun j h1 h2 => by omega
      fresh := fun j _ _ => hz j
      center_lo := le_refl _
      center_hi := by simp [zeroState]
      right_eq := by simp only [zeroState]; rw [hz]; rfl
      reach := fun j h1 h2 => by omega
      best_lo := le_refl _
      best_hi := by simp [zeroState]
      best_eq := by simp only [zeroState]; rw [hz]
      best_max := fun j h1 h2 => by omega
      best_first := fun j h1 h2 => by simp only [zeroState] at h2; omega }

theorem Inv.nonneg {t : List Char} {n i : Int} {st : ScanState} (h : Inv t n i st) : 0 ≤ n := by
  have := h.len
  omega

theorem scanLoop_inv (t : List Char) (n : Int) :
    ∀ (fuel : Nat) (i : Int) (st : ScanState), Inv t n i st → 1 ≤ i → 0 < fuel →
      n - 1 - i < fuel →
      ∃ st', scanLoop t n fuel i st = .ok st' ∧ Inv t n (max i (n - 1)) st' := by
  intro fuel
  induction fuel with
  | zero => intro i st _ _ h0; omega
  | succ fuel ih =>
    intro i st hinv hi1 _ hf
    have hn0 := hinv.nonneg
    have hsm := hinv.small
    have hwn : wrap32 (n - 1) = n - 1 := wrap32_eq (by omega) (by omega)
    by_cases hlt : i < n - 1
    · have hwi : wrap32 (i + 1) = i + 1 := wrap32_eq (by omega) (by omega)
      obtain ⟨st1, hbody, hinv1, -⟩ := scanBody_inv hinv hi1 hlt
      obtain ⟨st2, hrun, hinv2⟩ :=
        ih (i + 1) st1 hinv1 (by omega) (by omega) (by push_cast at hf; omega)
      refine ⟨st2, ?_, ?_⟩
      · simp only [scanLoop, hwn, if_pos hlt, hbody, bind, Except.bind, hwi]
        exact hrun
      · have e : max (i + 1) (n - 1) = max i (n - 1) := by omega
        rw [← e]; exact hinv2
    · refine ⟨st, ?_, ?_⟩
      · simp only [scanLoop, hwn, if_neg hlt, pure, Except.pure]
      · have e : max i (n - 1) = i := by omega
        rw [e]; exact hinv

theorem scanLoopC_spec (t : List Char) (n : Int) :
    ∀ (fuel : Nat) (i : Int) (st : ScanState) (cnt : Nat), Inv t n i st → 1 ≤ i → 0 < fuel →
      n - 1 - i < fuel → (cnt : Int) ≤ st.right + (i - 1) →
      ∃ (st' : ScanState) (c : Nat), scanLoopC t n fuel i st cnt = .ok (st', c) ∧
        scanLoop t n fuel i st = .ok st' ∧
        (c : Int) ≤ st'.right + (max i (n - 1) - 1) := by
  intro fuel
  induction fuel with
  | zero => intro i st cnt _ _ h0; omega
  | succ fuel ih =>
    intro i st cnt hinv hi1 _ hf hcnt
    have hn0 := hinv.nonneg
    have hsm := hinv.small
    have hwn : wrap32 (n - 1) = n - 1 := wrap32_eq (by omega) (by omega)
    by_cases hlt : i < n - 1
    · have hwi : wrap32 (i + 1) = i + 1 := wrap32_eq (by omega) (by omega)
      obtain ⟨st1, c1, hbodyC, hbody, hinv1, hmono, hc0, hc1⟩ := scanBodyC_spec hinv hi1 hlt cnt
      obtain ⟨st2, c2, hrunC, hrun, hc2⟩ :=
        ih (i + 1) st1 c1 hinv1 (by omega) (by omega) (by push_cast at hf; omega) (by omega)
      refine ⟨st2, c2, ?_, ?_, ?_⟩
      · simp only [scanLoopC, hwn, if_pos hlt, hbodyC, bind, Except.bind, hwi]
        exact hrunC
      · simp only [scanLoop, hwn, if_pos hlt, hbody, bind, Except.bind, hwi]
        exact hrun
      · have e : max (i + 1) (n - 1) = max i (n - 1) := by omega
        rw [← e]; exact hc2
    · refine ⟨st, cnt, ?_, ?_, ?_⟩
      · simp only [scanLoopC, hwn, if_neg hlt, pure, Except.pure]
      · simp only [scanLoop, hwn, if_neg hlt, pure, Except.pure]
      · have e : max i (n - 1) = i := by omega
        rw [e]; exact hcnt

/-! ## The state at the head of each iteration -/

theorem stateAfter_inv (t : List Char) (n : Int) (hn : n = wrap32 (t.length : Int))
    (h0 : 0 ≤ n) :
    ∀ k : Nat, (k : Int) + 1 ≤ max 1 (n - 1) →
      ∃ st, stateAfter t k = .ok st ∧ Inv t n ((k : Int) + 1) st := by
  have hw := wrap32_nat t.length
  rw [← hn] at hw
  intro k
  induction k with
  | zero =>
    intro _
    refine ⟨zeroState n, ?_, by simpa using zeroState_inv t n (hw.2.2 h0) hw.1 h0⟩
    simp only [stateAfter, ← hn]
    exact initState_ok n h0
  | succ k ih =>
    intro hk
    obtain ⟨st, hst, hinv⟩ := ih (by push_cast at hk; omega)
    obtain ⟨st1, hbody, hinv1, -⟩ :=
      scanBody_inv hinv (by omega) (by push_cast at hk; omega)
    refine ⟨st1, ?_, ?_⟩
    · simp only [stateAfter, hst, bind, Except.bind, ← hn]
      exact hbody
    · push_cast
      exact hinv1

theorem scanLoop_stateAfter (t : List Char) (n : Int) (hn : n = wrap32 (t.length : Int)) :
    ∀ (j k fuel : Nat) (st : ScanState), stateAfter t k = .ok st → Inv t n ((k : Int) + 1) st →
      j < fuel → (k : Int) + 1 + j = max ((k : Int) + 1) (n - 1) →
      scanLoop t n fuel ((k : Int) + 1) st = stateAfter t (k + j) := by
  intro j
  induction j with
  | zero =>
    intro k fuel st hst hinv hf hj
    have hn0 := hinv.nonneg
    have hsm := hinv.small
    have hwn : wrap32 (n - 1) = n - 1 := wrap32_eq (by omega) (by omega)
    obtain ⟨fuel, rfl⟩ : ∃ f, fuel = f + 1 := ⟨fuel - 1, by omega⟩
    have hlt : ¬ ((k : Int) + 1 < n - 1) := by omega
    simp only [scanLoop, hwn, if_neg hlt, pure, Except.pure, Nat.add_zero, hst]
  | succ j ih =>
    intro k fuel st hst hinv hf hj
    have hn0 := hinv.nonneg
    have hsm := hinv.small
    have hwn : wrap32 (n - 1) = n - 1 := wrap32_eq (by omega) (by omega)
    obtain ⟨fuel, rfl⟩ : ∃ f, fuel = f + 1 := ⟨fuel - 1, by omega⟩
    have hlt : (k : Int) + 1 < n - 1 := by push_cast at hj; omega
    have hwi : wrap32 ((k : Int) + 1 + 1) = (k : Int) + 1 + 1 := wrap32_eq (by omega) (by omega)
    obtain ⟨st1, hbody, hinv1, -⟩ := scanBody_inv hinv (by omega) hlt
    have hst1 : stateAfter t (k + 1) = .ok st1 := by
      simp only [stateAfter, hst, bind, Except.bind, ← hn]
      exact hbody
    have := ih (k + 1) fuel st1 hst1 (by push_cast; exact hinv1) (by omega)
      (by push_cast at hj ⊢; omega)
    simp only [scanLoop, hwn, if_pos hlt, hbody, bind, Except.bind, hwi]
    have e : k + (j + 1) = k + 1 + j := by omega
    rw [e, ← this]
    push_cast
    rfl

/-! ## The transformed string -/

theorem transform_snoc (s : List Char) (c : Char) :
    transform (s ++ [c]) = transform s ++ [c, '#'] := by
  simp [transform, List.foldl_append]

theorem transform_length (s : List Char) : (transform s).length = 2 * s.length + 1 := by
  induction s using List.reverseRecOn with
  | nil => rfl
  | append_singleton s c ih => rw [transform_snoc]; simp [ih]; omega

theorem transform_even (s : List Char) :
    ∀ k : Nat, k ≤ s.length → (transform s)[2 * k]? = some '#' := by
  induction s using List.reverseRecOn with
  | nil => intro k hk; simp at hk; subst hk; rfl
  | append_singleton s c ih =>
    intro k hk
    rw [transform_snoc]
    have hl := transform_length s
    by_cases h : k ≤ s.length
    · rw [List.getElem?_append_left (by omega)]; exact ih k h
    · have hk' : k = s.length + 1 := by simp at hk; omega
      rw [List.getElem?_append_right (by omega)]
      have : 2 * k - (transform s).length = 1 := by omega
      rw [this]; rfl

theorem transform_odd (s : List Char) :
    ∀ k : Nat, (transform s)[2 * k + 1]? = s[k]? := by
  induction s using List.reverseRecOn with
  | nil => intro k; simp [transform]
  | append_singleton s c ih =>
    intro k
    rw [transform_snoc]
    have hl := transform_length s
    rcases lt_trichotomy k s.length with h | h | h
    · rw [List.getElem?_append_left (by omega), List.getElem?_append_left h]; exact ih k
    · rw [List.getElem?_append_right (by omega), List.getElem?_append_right (by omega)]
      have : 2 * k + 1 - (transform s).length = 0 := by omega
      rw [this, h]; simp
    · rw [List.getElem?_append_right (by omega), List.getElem?_append_right (by omega)]
      have h1 : 2 ≤ 2 * k + 1 - (transform s).length := by omega
      have h2 : 1 ≤ k - s.length := by omega
      rw [List.getElem?_eq_none (by simpa using h1), List.getElem?_eq_none (by simpa using h2)]

theorem nth_transform_even (s : List Char) (j : Int) (k : Nat) (hj : j = 2 * (k : Int))
    (hk : k ≤ s.length) : nth (transform s) j = '#' := by
  have e : j.toNat = 2 * k := by omega
  unfold nth
  rw [List.getD_eq_getElem?_getD, e, transform_even s k hk]; rfl

theorem nth_transform_odd (s : List Char) (j : Int) (k : Nat) (hj : j = 2 * (k : Int) + 1) :
    nth (transform s) j = (s[k]?).getD default := by
  have e : j.toNat = 2 * k + 1 := by omega
  unfold nth
  rw [List.getD_eq_getElem?_getD, e, transform_odd s k]


theorem transform_wrap (s : List Char) :
    wrap32 ((transform s).length : Int) % 2 = 1 ∧
    wrap32 ((transform s).length : Int) ≤ 2147483647 ∧
    (s.length < 1073741824 →
      wrap32 ((transform s).length : Int) = 2 * (s.length : Int) + 1) := by
  have h := wrap32_length s.length
  rw [transform_length]
  refine ⟨h.1, h.2.1, fun hs => ?_⟩
  rw [h.2.2.2 hs]
  push_cast
  rfl

theorem scan_eq_stateAfter (s : List Char) :
    scan s = stateAfter (transform s) (wrap32 ((transform s).length : Int) - 2).toNat := by
  have hw := wrap32_nat (transform s).length
  have hodd := (transform_wrap s).1
  have hlen : 0 < (transform s).length := by rw [transform_length]; omega
  obtain ⟨n, hn⟩ : ∃ n, n = wrap32 ((transform s).length : Int) := ⟨_, rfl⟩
  rw [← hn] at hw hodd ⊢
  have hscan : scan s = (initState n).bind
      (fun st => scanLoop (transform s) n (transform s).length 1 st) := by
    rw [hn]; rfl
  rw [hscan]
  by_cases h0 : n < 0
  · have e : (n - 2).toNat = 0 := by omega
    rw [e, initState_neg n h0]
    simp only [stateAfter, ← hn, initState_neg n h0, Except.bind]
  · have h0' : 0 ≤ n := by omega
    have e1 : ((0 : Nat) : Int) + 1 = 1 := by norm_num
    have hst0 : stateAfter (transform s) 0 = .ok (zeroState n) := by
      simp only [stateAfter, ← hn]
      exact initState_ok n h0'
    have hinv0 : Inv (transform s) n (((0 : Nat) : Int) + 1) (zeroState n) := by
      rw [e1]
      exact zeroState_inv (transform s) n (hw.2.2 h0') hw.1 h0'
    have := scanLoop_stateAfter (transform s) n hn (n - 2).toNat 0 (transform s).length
      (zeroState n) hst0 hinv0 (by have := hw.2.2 h0'; omega) (by rw [e1]; omega)
    rw [e1, Nat.zero_add] at this
    rw [initState_ok n h0', ← this]
    rfl

/-! ## Slices of the input and segments of the transformed string -/

theorem slice_length (s : List Char) (a b : Nat) (hb : b ≤ s.length) :
    (slice s a b).length = b - a := by
  simp [slice]; omega

theorem slice_getElem? (s : List Char) (a b k : Nat) (hk : k < b - a) :
    (slice s a b)[k]? = s[a + k]? := by
  simp [slice, List.getElem?_take, hk]

theorem slice_full (s : List Char) : slice s 0 s.length = s := by
  simp [slice]

theorem slice_map (f : Char → Char) (s : List Char) (a b : Nat) :
    slice (s.map f) a b = (slice s a b).map f := by
  simp [slice, List.map_take, List.map_drop]

theorem palIdx_of_isPalindrome {s : List Char} {a b : Nat} (hb : b ≤ s.length)
    (h : IsPalindrome (slice s a b)) : PalIdx s a b := by
  intro u v hu1 hu2 huv
  have hlen := slice_length s a b hb
  have h1 : (slice s a b)[u - a]? = s[u]? := by
    rw [slice_getElem? s a b (u - a) (by omega)]; congr 1; omega
  have h2 : (slice s a b)[v - a]? = s[v]? := by
    rw [slice_getElem? s a b (v - a) (by omega)]; congr 1; omega
  rw [← h1, ← h2]
  have h3 : (slice s a b).reverse[u - a]? = (slice s a b)[v - a]? := by
    rw [List.getElem?_reverse (by omega)]; congr 1; omega
  unfold IsPalindrome at h
  rw [h] at h3
  exact h3

theorem isPalindrome_of_palIdx {s : List Char} {a b : Nat} (hb : b ≤ s.length)
    (h : PalIdx s a b) : IsPalindrome (slice s a b) := by
  have hlen := slice_length s a b hb
  unfold IsPalindrome
  apply List.ext_getElem?
  intro k
  by_cases hk : k < b - a
  · rw [List.getElem?_reverse (by omega), slice_getElem? s a b k hk,
      slice_getElem? s a b _ (by omega)]
    exact (h (a + k) _ (by omega) (by omega) (by omega)).symm
  · rw [List.getElem?_eq_none (by simp; omega), List.getElem?_eq_none (by omega)]

theorem palIdx_map (f : Char → Char) (hf : Function.Injective f) (s : List Char) (a b : Nat) :
    PalIdx (s.map f) a b ↔ PalIdx s a b := by
  constructor
  · intro h u v h1 h2 h3
    have := h u v h1 h2 h3
    rw [List.getElem?_map, List.getElem?_map] at this
    exact Option.map_injective hf this
  · intro h u v h1 h2 h3
    rw [List.getElem?_map, List.getElem?_map, h u v h1 h2 h3]

theorem palAt_of_palIdx {s : List Char} {a b : Nat} (n : Int) (hn : 2 * (b : Int) < n)
    (hnm : n ≤ 2 * (s.length : Int) + 1) (hab : a ≤ b) (h : PalIdx s a b) :
    PalAt (transform s) n ((a : Int) + b) ((b : Int) - a) := by
  refine ⟨by omega, by omega, by omega, fun k hk1 hk2 => ?_⟩
  obtain ⟨kn, rfl⟩ := Int.eq_ofNat_of_zero_le (show 0 ≤ k by omega)
  rcases Nat.even_or_odd (a + b + kn) with ⟨x, hx⟩ | ⟨u, hu⟩
  · rw [nth_transform_even s _ x (by omega) (by omega),
      nth_transform_even s _ (x - kn) (by omega) (by omega)]
  · rw [nth_transform_odd s _ u (by omega), nth_transform_odd s _ (u - kn) (by omega)]
    rw [h u (u - kn) (by omega) (by omega) (by omega)]

theorem palIdx_of_palAt {s : List Char} {a b : Nat} (n : Int) (hb : b ≤ s.length)
    (h : PalAt (transform s) n ((a : Int) + b) ((b : Int) - a)) : PalIdx s a b := by
  obtain ⟨_, _, _, hsym⟩ := h
  have key : ∀ u v : Nat, a ≤ v → v < u → u < b → u + v + 1 = a + b → s[u]? = s[v]? := by
    intro u v hv huv hu hsum
    have := hsym ((u : Int) - v) (by omega) (by omega)
    rw [nth_transform_odd s _ u (by omega), nth_transform_odd s _ v (by omega)] at this
    rw [List.getElem?_eq_getElem (by omega), List.getElem?_eq_getElem (by omega)] at this ⊢
    simpa using this
  intro u v hu1 hu2 huv
  rcases lt_trichotomy u v with hlt | heq | hgt
  · exact (key v u hu1 hlt (by omega) (by omega)).symm
  · rw [heq]
  · exact key u v (by omega) hgt hu2 huv

theorem MaxPal.parity {s : List Char} {n c r : Int} (hnm : n ≤ 2 * (s.length : Int) + 1)
    (hodd : n % 2 = 1) (h : MaxPal (transform s) n c r) : (c - r) % 2 = 0 := by
  by_contra hpar
  obtain ⟨⟨h0, h1, h2, _⟩, hmax⟩ := h
  refine hmax (by omega) (by omega) ?_
  rw [nth_transform_even s _ ((c + (r + 1)) / 2).toNat (by omega) (by omega),
    nth_transform_even s _ ((c - (r + 1)) / 2).toNat (by omega) (by omega)]

theorem palAt_isPalindrome {t : List Char} {n c r : Int} (hn : n ≤ (t.length : Int))
    (h : PalAt t n c r) : IsPalindrome (slice t (c - r).toNat (c + r + 1).toNat) := by
  obtain ⟨h0, h1, h2, hsym⟩ := h
  apply isPalindrome_of_palIdx (by omega)
  intro u v hu1 hu2 huv
  have key : ∀ x y : Nat, (x : Int) + y = 2 * c → x < y → (y : Int) ≤ c + r → t[y]? = t[x]? := by
    intro x y hxy hlt hy
    have := hsym ((y : Int) - c) (by omega) (by omega)
    have e1 : c + ((y : Int) - c) = (y : Int) := by ring
    have e2 : c - ((y : Int) - c) = (x : Int) := by omega
    rw [e1, e2] at this
    unfold nth at this
    simp only [Int.toNat_ofNat, List.getD_eq_getElem?_getD] at this
    rw [List.getElem?_eq_getElem (by omega), List.getElem?_eq_getElem (by omega)] at this ⊢
    simpa using this
  rcases lt_trichotomy u v with hlt | heq | hgt
  · exact (key u v (by omega) hlt (by omega)).symm
  · rw [heq]
  · exact key v u (by omega) hgt (by omega)

theorem transform_slice (s : List Char) (a L : Nat) (h : a + L ≤ s.length) :
    ((transform s).drop (2 * a)).take (2 * L + 1) = transform (slice s a (a + L)) := by
  have hl := transform_length s
  have hsl := slice_length s a (a + L) h
  have hl2 := transform_length (slice s a (a + L))
  apply List.ext_getElem?
  intro j
  by_cases hj : j < 2 * L + 1
  · rw [List.getElem?_take_of_lt hj, List.getElem?_drop]
    rcases Nat.even_or_odd j with ⟨x, hx⟩ | ⟨x, hx⟩
    · have e1 : 2 * a + j = 2 * (a + x) := by omega
      have e2 : j = 2 * x := by omega
      rw [e1, transform_even s (a + x) (by omega), e2,
        transform_even (slice s a (a + L)) x (by omega)]
    · have e1 : 2 * a + j = 2 * (a + x) + 1 := by omega
      rw [e1, transform_odd s (a + x), hx, transform_odd (slice s a (a + L)) x,
        slice_getElem? s a (a + L) x (by omega)]
  · rw [List.getElem?_eq_none (by simp; omega), List.getElem?_eq_none (by omega)]

/-! ## The scan as a whole -/

theorem scan_unfold (s : List Char) :
    scan s = (initState (wrap32 ((transform s).length : Int))).bind
      (fun st => scanLoop (transform s) (wrap32 ((transform s).length : Int))
        (transform s).length 1 st) := rfl

theorem scanC_unfold (s : List Char) :
    scanC s = (initState (wrap32 ((transform s).length : Int))).bind
      (fun st => scanLoopC (transform s) (wrap32 ((transform s).length : Int))
        (transform s).length 1 st 0) := rfl

theorem manacher_unfold (s : List Char) :
    manacher s = (scan s).bind (fun st => substr s (startOf st) st.maxLen) := rfl

theorem scan_lengthError (s : List Char) (h : wrap32 ((transform s).length : Int) < 0) :
    scan s = .error .lengthError ∧ scanC s = .error .lengthError ∧
    manacher s = .error .lengthError := by
  have h1 : scan s = .error .lengthError := by
    rw [scan_unfold, initState_neg _ h]; rfl
  refine ⟨h1, ?_, ?_⟩
  · rw [scanC_unfold, initState_neg _ h]; rfl
  · rw [manacher_unfold, h1]; rfl

theorem scan_ok (s : List Char) (n : Int) (hn : n = wrap32 ((transform s).length : Int))
    (h0 : 0 ≤ n) : ∃ st, scan s = .ok st ∧ Inv (transform s) n (max 1 (n - 1)) st := by
  have hw := wrap32_nat (transform s).length
  rw [← hn] at hw
  have hlen : 0 < (transform s).length := by rw [transform_length]; omega
  obtain ⟨st, hrun, hinv⟩ := scanLoop_inv (transform s) n (transform s).length 1
    (zeroState n) (zeroState_inv _ n (hw.2.2 h0) hw.1 h0) (le_refl 1) hlen
    (by have := hw.2.2 h0; omega)
  refine ⟨st, ?_, hinv⟩
  rw [scan_unfold, ← hn, initState_ok n h0]
  exact hrun

theorem scanC_ok (s : List Char) (n : Int) (hn : n = wrap32 ((transform s).length : Int))
    (h0 : 0 ≤ n) :
    ∃ (st : ScanState) (c : Nat), scanC s = .ok (st, c) ∧ scan s = .ok st ∧
      Inv (transform s) n (max 1 (n - 1)) st ∧ (c : Int) ≤ st.right + (max 1 (n - 1) - 1) := by
  have hw := wrap32_nat (transform s).length
  rw [← hn] at hw
  have hlen : 0 < (transform s).length := by rw [transform_length]; omega
  obtain ⟨st, c, hC, hrun, hc⟩ := scanLoopC_spec (transform s) n (transform s).length 1
    (zeroState n) 0 (zeroState_inv _ n (hw.2.2 h0) hw.1 h0) (le_refl 1) hlen
    (by have := hw.2.2 h0; omega) (by simp [zeroState])
  obtain ⟨st0, hrun0, hinv⟩ := scan_ok s n hn h0
  have hrun' : scan s = .ok st := by
    rw [scan_unfold, ← hn, initState_ok n h0]; exact hrun
  have hst : st0 = st := by
    rw [hrun0] at hrun'
    injection hrun'
  subst hst
  refine ⟨st0, c, ?_, hrun0, hinv, hc⟩
  rw [scanC_unfold, ← hn, initState_ok n h0]
  exact hC

theorem palAt_one (s : List Char) (n : Int) (h3 : 3 ≤ n)
    (hnm : n ≤ 2 * (s.length : Int) + 1) : PalAt (transform s) n 1 1 := by
  have := palAt_of_palIdx (s := s) (a := 0) (b := 1) n (by omega) hnm (by omega)
    (fun u v _ _ huv => by
      have hu : u = 0 := by omega
      have hv : v = 0 := by omega
      rw [hu, hv])
  simpa using this

theorem substr_ok (s : List Char) (a L : Nat) (h : a ≤ s.length) :
    substr s (a : Int) (L : Int) = .ok (slice s a (a + L)) := by
  have h1 : (0 : Int) ≤ (a : Int) ∧ (a : Int) ≤ (s.length : Int) := ⟨by omega, by omega⟩
  have h2 : (0 : Int) ≤ (L : Int) := by omega
  simp only [substr, if_pos h1, if_pos h2, slice, Int.toNat_ofNat]
  congr 3
  omega

theorem iteration_state (s : List Char) (n : Int) (hn : n = wrap32 ((transform s).length : Int))
    (k : Nat) (i : Int) (hi : i = (k : Int) + 1) (hk : i ≤ n - 2) :
    ∃ st, stateAfter (transform s) k = .ok st ∧ Inv (transform s) n i st ∧ 1 ≤ i ∧
      i < n - 1 := by
  subst hi
  obtain ⟨st, h1, h2⟩ := stateAfter_inv (transform s) n hn (by omega) k (by omega)
  exact ⟨st, h1, h2, by omega, by omega⟩

theorem final_maxPal {t : List Char} {n : Int} {st : ScanState}
    (hinv : Inv t n (max 1 (n - 1)) st) (i : Int) (h0 : 0 ≤ i) (h1 : i ≤ n - 1) :
    MaxPal t n i (nth st.p i) := by
  by_cases hsc : 1 ≤ i ∧ i ≤ n - 2
  · exact hinv.radii i hsc.1 (by omega)
  · have hz : nth st.p i = 0 := hinv.fresh i h0 (by omega)
    rw [hz]
    exact ⟨PalAt.zero _ n i h0 (by omega), fun hb1 hb2 => by omega⟩

/-- The result of `manacher` on any input for which the narrowed length `n` is not negative:
the leftmost longest palindromic slice among those ending within the first `(n - 1) / 2`
symbols. -/
theorem manacher_spec (s : List Char) (n : Int) (hn : n = wrap32 ((transform s).length : Int))
    (h0 : 0 ≤ n) :
    ∃ (st : ScanState) (a L : Nat),
      scan s = .ok st ∧ Inv (transform s) n (max 1 (n - 1)) st ∧
      st.maxLen = (L : Int) ∧ startOf st = (a : Int) ∧ st.centerIndex = 2 * (a : Int) + L ∧
      2 * ((a : Int) + L) < n ∧ a + L ≤ s.length ∧
      manacher s = .ok (slice s a (a + L)) ∧ PalIdx s a (a + L) ∧
      (∀ a' b' : Nat, a' ≤ b' → 2 * (b' : Int) < n → PalIdx s a' b' → b' - a' ≤ L) ∧
      (∀ j : Nat, 2 * ((j : Int) + L) < n → PalIdx s j (j + L) → a ≤ j) := by
  obtain ⟨st, hrun, hinv⟩ := scan_ok s n hn h0
  have hl := transform_length s
  have hw := wrap32_nat (transform s).length
  have hodd := (transform_wrap s).1
  rw [← hn] at hw hodd
  have hnm : n ≤ 2 * (s.length : Int) + 1 := by
    have := hw.2.2 h0
    rw [hl] at this
    push_cast at this
    exact this
  have hsm := hw.1
  have hblo := hinv.best_lo
  have hbhi := hinv.best_hi
  have hbeq := hinv.best_eq
  -- the best segment is symmetric and of the parity of its center
  have hm := final_maxPal hinv st.centerIndex hblo (by omega)
  rw [hbeq] at hm
  have hpar := MaxPal.parity hnm hodd hm
  obtain ⟨⟨hL0, hLc, hcL, hsym⟩, -⟩ := hm
  obtain ⟨L, hL⟩ := Int.eq_ofNat_of_zero_le hL0
  obtain ⟨a, ha⟩ := Int.eq_ofNat_of_zero_le
    (show 0 ≤ (st.centerIndex - st.maxLen) / 2 by omega)
  have hc2 : st.centerIndex = 2 * (a : Int) + L := by omega
  have hstart : startOf st = (a : Int) := by
    unfold startOf
    rw [wrap32_eq (by omega) (by omega), Int.tdiv_eq_ediv (by omega) (by decide)]
    exact ha
  have hbound : 2 * ((a : Int) + L) < n := by omega
  have hbound' : a + L ≤ s.length := by omega
  have hradius : ∀ a' b' : Nat, a' < b' → 2 * (b' : Int) < n → PalIdx s a' b' →
      ((b' : Int) - a' ≤ nth st.p ((a' : Int) + b')) := by
    intro a' b' hab hb hp
    have hm := hinv.radii ((a' : Int) + b') (by omega) (by omega)
    exact hm.le_of_palAt (palAt_of_palIdx n hb hnm (by omega) hp)
  have hmaxi : ∀ a' b' : Nat, a' ≤ b' → 2 * (b' : Int) < n → PalIdx s a' b' → b' - a' ≤ L := by
    intro a' b' hab hb hp
    rcases Nat.eq_or_lt_of_le hab with heq | hlt
    · omega
    · have h1 := hradius a' b' hlt hb hp
      have h2 := hinv.best_max ((a' : Int) + b') (by omega) (by omega)
      omega
  refine ⟨st, a, L, hrun, hinv, hL, hstart, hc2, hbound, hbound', ?_, ?_, hmaxi, ?_⟩
  · rw [manacher_unfold, hrun]
    show substr s (startOf st) st.maxLen = _
    rw [hstart, hL]
    exact substr_ok s a L (by omega)
  · apply palIdx_of_palAt n (by omega)
    have e1 : ((a : Int) + ((a + L : Nat) : Int)) = st.centerIndex := by push_cast; omega
    have e2 : (((a + L : Nat) : Int) - (a : Int)) = st.maxLen := by push_cast; omega
    rw [e1, e2]
    exact ⟨hL0, hLc, hcL, hsym⟩
  · intro j hj hp
    by_cases hLz : L = 0
    · by_contra hlt
      have h1 := (hinv.radii 1 (le_refl 1) (by omega)).le_of_palAt
        (palAt_one s n (by omega) hnm)
      have h2 := hinv.best_max 1 (le_refl 1) (by omega)
      omega
    · have h1 := hradius j (j + L) (by omega) (by push_cast; omega) hp
      have h2 := hinv.best_max ((j : Int) + (j + L : Nat)) (by omega) (by push_cast; omega)
      by_contra hlt
      have h3 := hinv.best_first ((j : Int) + (j + L : Nat)) (by omega) (by push_cast; omega)
      push_cast at h1 h2 h3
      omega

/-- The narrowed length of the transformed string for an input shorter than `2^30`. -/
theorem small_n (s : List Char) (hs : s.length < 1073741824) :
    wrap32 ((transform s).length : Int) = ((transform s).length : Int) ∧
    ((transform s).length : Int) = 2 * (s.length : Int) + 1 ∧
    (0 : Int) ≤ ((transform s).length : Int) := by
  have h := (transform_wrap s).2.2 hs
  have hl := transform_length s
  refine ⟨?_, by rw [hl]; push_cast; rfl, by omega⟩
  rw [h, hl]
  push_cast
  rfl

/-- The result of `manacher` on an input shorter than `2^30`: the leftmost longest palindromic
slice of the input. -/
theorem manacher_spec_small (s : List Char) (hs : s.length < 1073741824) :
    ∃ (st : ScanState) (a L : Nat),
      scan s = .ok st ∧
      Inv (transform s) ((transform s).length : Int) (max 1 (2 * (s.length : Int))) st ∧
      st.maxLen = (L : Int) ∧ startOf st = (a : Int) ∧ st.centerIndex = 2 * (a : Int) + L ∧
      a + L ≤ s.length ∧ manacher s = .ok (slice s a (a + L)) ∧ PalIdx s a (a + L) ∧
      (∀ a' b' : Nat, a' ≤ b' → b' ≤ s.length → PalIdx s a' b' → b' - a' ≤ L) ∧
      (∀ j : Nat, j + L ≤ s.length → PalIdx s j (j + L) → a ≤ j) := by
  obtain ⟨hw, hl, h0⟩ := small_n s hs
  obtain ⟨st, a, L, hrun, hinv, hL, hstart, hc, -, hb, m2, m3, m4, m5⟩ :=
    manacher_spec s _ hw.symm h0
  have e : max 1 (((transform s).length : Int) - 1) = max 1 (2 * (s.length : Int)) := by
    rw [hl]; omega
  rw [e] at hinv
  refine ⟨st, a, L, hrun, hinv, hL, hstart, hc, hb, m2, m3, ?_, ?_⟩
  · intro a' b' h1 h2 h3
    exact m4 a' b' h1 (by rw [hl]; omega) h3
  · intro j h1 h2
    exact m5 j (by rw [hl]; omega) h2

/-! ## The quadratic reference -/

theorem expandAround_spec (s : List Char) :
    ∀ lo hi : Nat, lo ≤ hi → hi ≤ s.length → PalIdx s lo hi →
      (expandAround s lo hi).1 + (expandAround s lo hi).2 = lo + hi ∧
      (expandAround s lo hi).1 ≤ lo ∧ hi ≤ (expandAround s lo hi).2 ∧
      (expandAround s lo hi).2 ≤ s.length ∧
      PalIdx s (expandAround s lo hi).1 (expandAround s lo hi).2 ∧
      ∀ a b : Nat, a ≤ b → b ≤ s.length → a + b = lo + hi → PalIdx s a b →
        b - a ≤ (expandAround s lo hi).2 - (expandAround s lo hi).1 := by
  intro lo
  induction lo with
  | zero =>
    intro hi _ hhi hp
    have e : expandAround s 0 hi = (0, hi) := by simp only [expandAround]
    rw [e]
    exact ⟨rfl, le_refl 0, le_refl hi, hhi, hp, fun a b _ _ hab _ => by omega⟩
  | succ lo ih =>
    intro hi hle hhi hp
    by_cases hc : hi < s.length ∧ s[lo]? = s[hi]?
    · have hp' : PalIdx s lo (hi + 1) := by
        intro u v hu1 hu2 huv
        by_cases h1 : u = lo
        · have hv : v = hi := by omega
          rw [h1, hv]; exact hc.2
        · by_cases h2 : u = hi
          · have hv : v = lo := by omega
            rw [h2, hv]; exact hc.2.symm
          · exact hp u v (by omega) (by omega) (by omega)
      obtain ⟨e1, e2, e3, e4, e5, e6⟩ := ih (hi + 1) (by omega) (by omega) hp'
      have e : expandAround s (lo + 1) hi = expandAround s lo (hi + 1) := by
        simp only [expandAround, if_pos hc]
      rw [e]
      exact ⟨by omega, by omega, by omega, e4, e5,
        fun a b h1 h2 h3 h4 => e6 a b h1 h2 (by omega) h4⟩
    · have e : expandAround s (lo + 1) hi = (lo + 1, hi) := by
        simp only [expandAround, if_neg hc]
      rw [e]
      refine ⟨rfl, le_refl _, le_refl _, hhi, hp, fun a b h1 h2 h3 h4 => ?_⟩
      by_contra hlt
      exact hc ⟨by omega, h4 lo hi (by omega) (by omega) (by omega)⟩

theorem centerWindow_spec (s : List Char) (c : Nat) (hc : c + 1 < 2 * s.length) :
    (centerWindow s c).1 + (centerWindow s c).2 = c + 1 ∧
    (centerWindow s c).1 ≤ (centerWindow s c).2 ∧
    (centerWindow s c).2 ≤ s.length ∧
    (c % 2 = 0 → 1 ≤ (centerWindow s c).2 - (centerWindow s c).1) ∧
    PalIdx s (centerWindow s c).1 (centerWindow s c).2 ∧
    ∀ a b : Nat, a ≤ b → b ≤ s.length → a + b = c + 1 → PalIdx s a b →
      b - a ≤ (centerWindow s c).2 - (centerWindow s c).1 := by
  by_cases hpar : c % 2 = 0
  · have hp : PalIdx s (c / 2) (c / 2 + 1) := by
      intro u v hu1 hu2 huv
      have hv : v = u := by omega
      rw [hv]
    obtain ⟨e1, e2, e3, e4, e5, e6⟩ :=
      expandAround_spec s (c / 2) (c / 2 + 1) (by omega) (by omega) hp
    have e : centerWindow s c = expandAround s (c / 2) (c / 2 + 1) := by
      simp only [centerWindow, if_pos hpar]
    rw [e]
    exact ⟨by omega, by omega, e4, fun _ => by omega, e5,
      fun a b h1 h2 h3 h4 => e6 a b h1 h2 (by omega) h4⟩
  · have hp : PalIdx s (c / 2 + 1) (c / 2 + 1) := by
      intro u v hu1 hu2 huv
      omega
    obtain ⟨e1, e2, e3, e4, e5, e6⟩ :=
      expandAround_spec s (c / 2 + 1) (c / 2 + 1) (le_refl _) (by omega) hp
    have e : centerWindow s c = expandAround s (c / 2 + 1) (c / 2 + 1) := by
      simp only [centerWindow, if_neg hpar]
    rw [e]
    exact ⟨by omega, by omega, e4, fun h => absurd h hpar, e5,
      fun a b h1 h2 h3 h4 => e6 a b h1 h2 (by omega) h4⟩

theorem bruteFold_spec (s : List Char) :
    ∀ k : Nat, k + 1 ≤ 2 * s.length →
      ((List.range k).foldl (bruteStep s) (0, 0)).1 +
          ((List.range k).foldl (bruteStep s) (0, 0)).2 ≤ s.length ∧
      PalIdx s ((List.range k).foldl (bruteStep s) (0, 0)).1
        (((List.range k).foldl (bruteStep s) (0, 0)).1 +
          ((List.range k).foldl (bruteStep s) (0, 0)).2) ∧
      (∀ c : Nat, c < k → (centerWindow s c).2 - (centerWindow s c).1 ≤
          ((List.range k).foldl (bruteStep s) (0, 0)).2) ∧
      (((List.range k).foldl (bruteStep s) (0, 0)) = (0, 0) ∨
        ∃ c : Nat, c < k ∧
          2 * ((List.range k).foldl (bruteStep s) (0, 0)).1 +
            ((List.range k).foldl (bruteStep s) (0, 0)).2 = c + 1 ∧
          (centerWindow s c).2 - (centerWindow s c).1 =
            ((List.range k).foldl (bruteStep s) (0, 0)).2 ∧
          ∀ c' : Nat, c' < c → (centerWindow s c').2 - (centerWindow s c').1 <
            ((List.range k).foldl (bruteStep s) (0, 0)).2) := by
  intro k
  induction k with
  | zero =>
    intro _
    refine ⟨by simp, ?_, fun c hc => by omega, Or.inl rfl⟩
    intro u v hu1 hu2 _
    simp at hu1 hu2
  | succ k ih =>
    intro hk
    obtain ⟨h1, h2, h3, h4⟩ := ih (by omega)
    obtain ⟨w1, w2, w3, w4, w5, w6⟩ := centerWindow_spec s k (by omega)
    rw [List.range_succ, List.foldl_append]
    simp only [List.foldl_cons, List.foldl_nil]
    generalize (List.range k).foldl (bruteStep s) (0, 0) = best at h1 h2 h3 h4 ⊢
    by_cases hgt : (centerWindow s k).2 - (centerWindow s k).1 > best.2
    · have e : bruteStep s best k =
          ((centerWindow s k).1, (centerWindow s k).2 - (centerWindow s k).1) := by
        simp only [bruteStep, if_pos hgt]
      rw [e]
      refine ⟨by omega, ?_, ?_, Or.inr ⟨k, by omega, by omega, rfl, ?_⟩⟩
      · have e : (centerWindow s k).1 + ((centerWindow s k).2 - (centerWindow s k).1) =
            (centerWindow s k).2 := by omega
        rw [e]; exact w5
      · intro c hc
        rcases Nat.lt_succ_iff_lt_or_eq.mp hc with hlt | heq
        · have := h3 c hlt; omega
        · rw [heq]
      · intro c' hc'
        have := h3 c' hc'; omega
    · have e : bruteStep s best k = best := by
        simp only [bruteStep, if_neg hgt]
      rw [e]
      refine ⟨h1, h2, ?_, ?_⟩
      · intro c hc
        rcases Nat.lt_succ_iff_lt_or_eq.mp hc with hlt | heq
        · exact h3 c hlt
        · rw [heq]; omega
      · rcases h4 with h4 | ⟨c, hc1, hc2, hc3, hc4⟩
        · exact Or.inl h4
        · exact Or.inr ⟨c, by omega, hc2, hc3, hc4⟩

theorem bruteForce_spec (s : List Char) :
    ∃ a L : Nat, bruteForce s = slice s a (a + L) ∧ a + L ≤ s.length ∧ PalIdx s a (a + L) ∧
      (∀ a' b' : Nat, a' ≤ b' → b' ≤ s.length → PalIdx s a' b' → b' - a' ≤ L) ∧
      (∀ j : Nat, j + L ≤ s.length → PalIdx s j (j + L) → a ≤ j) := by
  by_cases hs : s.length = 0
  · have hnil : s = [] := List.length_eq_zero.mp hs
    subst hnil
    refine ⟨0, 0, rfl, le_refl 0, ?_, ?_, ?_⟩
    · intro u v hu1 hu2 _; omega
    · intro a' b' _ hb _; simp at hb; omega
    · intro j _ _; omega
  · obtain ⟨h1, h2, h3, h4⟩ := bruteFold_spec s (2 * s.length - 1) (by omega)
    have hbf : bruteForce s =
        slice s ((List.range (2 * s.length - 1)).foldl (bruteStep s) (0, 0)).1
          (((List.range (2 * s.length - 1)).foldl (bruteStep s) (0, 0)).1 +
            ((List.range (2 * s.length - 1)).foldl (bruteStep s) (0, 0)).2) := by
      simp only [bruteForce, slice]
      congr 1
      omega
    generalize (List.range (2 * s.length - 1)).foldl (bruteStep s) (0, 0) = best
      at h1 h2 h3 h4 hbf
    have hmaxi : ∀ a' b' : Nat, a' ≤ b' → b' ≤ s.length → PalIdx s a' b' →
        b' - a' ≤ best.2 := by
      intro a' b' hab hb hp
      rcases Nat.eq_or_lt_of_le hab with heq | hlt
      · omega
      · obtain ⟨_, _, _, _, _, w6⟩ := centerWindow_spec s (a' + b' - 1) (by omega)
        have e1 := w6 a' b' hab hb (by omega) hp
        have e2 := h3 (a' + b' - 1) (by omega)
        omega
    have hzero := centerWindow_spec s 0 (by omega)
    have hz3 := h3 0 (by omega)
    refine ⟨best.1, best.2, hbf, h1, h2, hmaxi, ?_⟩
    intro j hj hp
    rcases h4 with h4 | ⟨c, hc1, hc2, hc3, hc4⟩
    · rw [h4]; exact Nat.zero_le j
    · have hpos : 1 ≤ best.2 := by
        have := hzero.2.2.2.1 rfl
        omega
      obtain ⟨_, _, _, _, _, w6⟩ := centerWindow_spec s (2 * j + best.2 - 1) (by omega)
      have e1 := w6 j (j + best.2) (by omega) hj (by omega) hp
      by_contra hlt
      have e2 := hc4 (2 * j + best.2 - 1) (by omega)
      omega

theorem isPalindrome_slice_one (s : List Char) : IsPalindrome (slice s 0 1) := by
  cases s with
  | nil => rfl
  | cons x xs => simp [slice, IsPalindrome]

theorem bruteForce_ne_nil (s : List Char) (h : 0 < s.length) : bruteForce s ≠ [] := by
  obtain ⟨a, L, h0, h1, -, h3, -⟩ := bruteForce_spec s
  have hp : PalIdx s 0 1 := fun u v _ _ huv => by
    have hu : u = 0 := by omega
    have hv : v = 0 := by omega
    rw [hu, hv]
  have := h3 0 1 (by omega) (by omega) hp
  intro hnil
  have hlen := slice_length s a (a + L) h1
  rw [← h0, hnil] at hlen
  simp at hlen
  omega

/-! ## Inputs beyond the range of `int` -/

theorem wrap32_big30 (s : List Char) (h : s.length = 1073741824) :
    wrap32 ((transform s).length : Int) < 0 := by
  rw [transform_length, h]
  unfold wrap32
  omega

theorem wrap32_big31 (s : List Char) (h : s.length = 2147483648) :
    wrap32 ((transform s).length : Int) = 1 := by
  rw [transform_length, h]
  unfold wrap32
  omega

theorem manacher_big30 (s : List Char) (h : s.length = 1073741824) :
    scan s = .error .lengthError ∧ manacher s = .error .lengthError :=
  ⟨(scan_lengthError s (wrap32_big30 s h)).1, (scan_lengthError s (wrap32_big30 s h)).2.2⟩

theorem slice_empty (s : List Char) (a : Nat) : slice s a (a + 0) = [] := by
  simp [slice]

/-- On an input of `2^31` symbols the narrowed length is `n = 1`: the scan loop is not
entered and the result is the empty string. -/
theorem manacher_big31 (s : List Char) (h : s.length = 2147483648) :
    (∃ st : ScanState, scan s = .ok st ∧ st.centerIndex = 0 ∧ st.maxLen = 0) ∧
    manacher s = .ok [] := by
  have hn := wrap32_big31 s h
  obtain ⟨st, a, L, hrun, hinv, hL, -, hc, hb, -, m2, -⟩ :=
    manacher_spec s 1 hn.symm (by omega)
  have hL0 : L = 0 := by omega
  subst hL0
  refine ⟨⟨st, hrun, by omega, by omega⟩, ?_⟩
  rw [m2, slice_empty]

theorem manacher_ok_nonneg (s : List Char) (r : List Char) (h : manacher s = .ok r) :
    0 ≤ wrap32 ((transform s).length : Int) := by
  by_contra hneg
  have := (scan_lengthError s (by omega)).2.2
  rw [this] at h
  cases h

theorem scan_ok_nonneg (s : List Char) (st : ScanState) (h : scan s = .ok st) :
    0 ≤ wrap32 ((transform s).length : Int) := by
  by_contra hneg
  have := (scan_lengthError s (by omega)).1
  rw [this] at h
  cases h

theorem manacher_self_of_palindrome (s : List Char) (hs : s.length < 1073741824)
    (h : s.reverse = s) : manacher s = .ok s := by
  obtain ⟨st, a0, L, -, -, -, -, -, m1, m2, -, m4, -⟩ := manacher_spec_small s hs
  have hp : PalIdx s 0 s.length :=
    palIdx_of_isPalindrome (le_refl _) (by rw [slice_full]; exact h)
  have := m4 0 s.length (Nat.zero_le _) (le_refl _) hp
  have hL : L = s.length := by omega
  have ha : a0 = 0 := by omega
  rw [m2, ha, hL, Nat.zero_add, slice_full]

theorem replicate_ne_nil (k : Nat) (c : Char) (hk : 0 < k) : List.replicate k c ≠ [] := by
  intro h
  have := congrArg List.length h
  rw [List.length_replicate] at this
  simp at this
  omega

/-! ## The contract of `manacher` -/

/-- C1, as amended. Maximality for inputs shorter than `2^30` symbols (so that
`n = 2 |s| + 1` fits the `int` of the code): for all offsets `a ≤ b ≤ |s|` such that the slice
`s[a .. b)` equals its own reverse, `manacher s` returns a string whose length is at least
`b - a`; no palindromic substring is strictly longer than the result. -/
theorem manacher_maximal (s : List Char) (hs : s.length < 1073741824) (a b : Nat) (hab : a ≤ b)
    (hb : b ≤ s.length) (hpal : IsPalindrome (slice s a b)) :
    ∃ r, manacher s = .ok r ∧ b - a ≤ r.length := by
  obtain ⟨st, a0, L, -, -, -, -, -, m1, m2, -, m4, -⟩ := manacher_spec_small s hs
  refine ⟨_, m2, ?_⟩
  rw [slice_length s a0 (a0 + L) m1]
  have := m4 a b hab hb (palIdx_of_isPalindrome hb hpal)
  omega

/-- C1, at the input of the second test case: `"xyzzyx"` is the slice at offsets 3 to 9 of
`"abaxyzzyxf"`, the result is that string and has length 6. -/
theorem manacher_maximal_witness :
    "abaxyzzyxf".toList.length < 1073741824 ∧
    IsPalindrome (slice "abaxyzzyxf".toList 3 9) ∧
    manacher "abaxyzzyxf".toList = .ok "xyzzyx".toList ∧
    ∃ r, manacher "abaxyzzyxf".toList = .ok r ∧ 9 - 3 ≤ r.length :=
  ⟨by decide, by decide, by rfl,
    manacher_maximal "abaxyzzyxf".toList (by decide) 3 9 (by decide) (by decide) (by decide)⟩

/-- C1, refuted as stated ("any length"): on the input of `2^31` symbols `'a'` the `int n`
narrows to 1, the scan loop is skipped and `manacher` returns the empty string, although the
one-symbol slice `s[0 .. 1)` is a palindrome of length 1. Already on the input of `2^30`
symbols `'a'` there is no result: the call throws `std::length_error`. -/
theorem manacher_maximal_counterexample :
    manacher (List.replicate 1073741824 'a') = .error .lengthError ∧
    IsPalindrome (slice (List.replicate 2147483648 'a') 0 1) ∧
    1 ≤ (List.replicate 2147483648 'a').length ∧
    manacher (List.replicate 2147483648 'a') = .ok [] ∧
    ¬ ∃ r, manacher (List.replicate 2147483648 'a') = .ok r ∧ 1 - 0 ≤ r.length := by
  have h := (manacher_big31 _ (List.length_replicate 2147483648 'a')).2
  refine ⟨(manacher_big30 _ (List.length_replicate 1073741824 'a')).2,
    isPalindrome_slice_one _, by rw [List.length_replicate]; omega, h, ?_⟩
  rintro ⟨r, hr, hlen⟩
  rw [h] at hr
  injection hr with hr
  subst hr
  simp at hlen

/-- C2, as amended. For every input `s` shorter than `2^30` symbols, `manacher s` returns a
string that is a palindrome: reversing the returned string gives the returned string. For an
input of any length, whenever `manacher` returns a string, that string is a palindrome. -/
theorem manacher_isPalindrome (s : List Char) :
    (s.length < 1073741824 → ∃ r, manacher s = .ok r ∧ r.reverse = r) ∧
    ∀ r, manacher s = .ok r → r.reverse = r := by
  have key : ∀ r, manacher s = .ok r → r.reverse = r := by
    intro r hr
    obtain ⟨st, a0, L, -, -, -, -, -, -, m1, m2, m3, -, -⟩ :=
      manacher_spec s (wrap32 ((transform s).length : Int)) rfl (manacher_ok_nonneg s r hr)
    rw [m2] at hr
    have e := Except.ok.inj hr
    subst e
    exact isPalindrome_of_palIdx m1 m3
  refine ⟨fun hs => ?_, key⟩
  obtain ⟨st, a0, L, -, -, -, -, -, -, m2, -⟩ := manacher_spec_small s hs
  exact ⟨_, m2, key _ m2⟩

/-- C2, at the input of the third test case: the result on `"xyzracecarabc"` is `"racecar"`,
which reads the same in both directions. -/
theorem manacher_isPalindrome_witness :
    "xyzracecarabc".toList.length < 1073741824 ∧
    manacher "xyzracecarabc".toList = .ok "racecar".toList ∧
    "racecar".toList.reverse = "racecar".toList ∧
    ∃ r, manacher "xyzracecarabc".toList = .ok r ∧ r.reverse = r :=
  ⟨by decide, by rfl, by decide, (manacher_isPalindrome "xyzracecarabc".toList).1 (by decide)⟩

/-- C2, refuted as stated: on the input of `2^30` symbols `'a'` the `int n` narrows to
`-2147483647`, the constructor of the radius vector throws `std::length_error`, and
`manacher` returns no string at all. -/
theorem manacher_isPalindrome_counterexample :
    manacher (List.replicate 1073741824 'a') = .error .lengthError ∧
    ¬ ∃ r, manacher (List.replicate 1073741824 'a') = .ok r ∧ r.reverse = r := by
  have h := (scan_lengthError _
    (wrap32_big30 _ (List.length_replicate 1073741824 'a'))).2.2
  refine ⟨h, ?_⟩
  rintro ⟨r, hr, -⟩
  rw [h] at hr
  cases hr

/-- C3, as amended. For every input `s` shorter than `2^30` symbols the scan ends in a state;
and whenever the scan ends in a state (for an input of any length `m`), its `maxLen` and
`centerIndex` give `start = (centerIndex - maxLen) / 2` with `0 ≤ start` and
`start + maxLen ≤ m`; the call `s.substr(start, maxLen)` therefore neither throws nor
truncates, and `manacher s` is exactly the slice `s[start .. start + maxLen)`, of length
exactly `maxLen`. -/
theorem manacher_substr_in_bounds (s : List Char) :
    (s.length < 1073741824 → ∃ st : ScanState, scan s = .ok st) ∧
    ∀ st : ScanState, scan s = .ok st →
      startOf st = (st.centerIndex - st.maxLen).tdiv 2 ∧
      0 ≤ startOf st ∧ 0 ≤ st.maxLen ∧ startOf st + st.maxLen ≤ (s.length : Int) ∧
      substr s (startOf st) st.maxLen =
        .ok (slice s (startOf st).toNat ((startOf st).toNat + st.maxLen.toNat)) ∧
      manacher s = .ok (slice s (startOf st).toNat ((startOf st).toNat + st.maxLen.toNat)) ∧
      ((slice s (startOf st).toNat ((startOf st).toNat + st.maxLen.toNat)).length : Int)
        = st.maxLen := by
  refine ⟨fun hs => ?_, fun st hst => ?_⟩
  · obtain ⟨st, a0, L, hrun, -⟩ := manacher_spec_small s hs
    exact ⟨st, hrun⟩
  · obtain ⟨st0, a0, L, hrun, -, hL, hstart, hc, -, m1, m2, -, -, -⟩ :=
      manacher_spec s (wrap32 ((transform s).length : Int)) rfl (scan_ok_nonneg s st hst)
    have e : st0 = st := by
      rw [hrun] at hst
      exact Except.ok.inj hst
    subst e
    refine ⟨?_, by omega, by omega, by omega, ?_, ?_, ?_⟩
    · rw [hstart, hc, hL]
      have e2 : 2 * (a0 : Int) + L - L = 2 * (a0 : Int) := by ring
      rw [e2, Int.tdiv_eq_ediv (by omega) (by decide)]
      omega
    · rw [hstart, hL]
      simp only [Int.toNat_ofNat]
      exact substr_ok s a0 L (by omega)
    · rw [hstart, hL]
      simp only [Int.toNat_ofNat]
      exact m2
    · rw [hstart, hL]
      simp only [Int.toNat_ofNat]
      rw [slice_length s a0 (a0 + L) m1]
      omega

/-- C3, at the input `"abab"`: the scan ends with `maxLen = 3` and `centerIndex = 3`, so
`start = 0`, and the result is the slice `s[0 .. 3)`. -/
theorem manacher_substr_in_bounds_witness :
    "abab".toList.length < 1073741824 ∧
    scan "abab".toList = .ok ⟨[0, 1, 0, 3, 0, 3, 0, 1, 0], 5, 8, 3, 3⟩ ∧
    manacher "abab".toList = .ok "aba".toList ∧
    ∃ st : ScanState, scan "abab".toList = .ok st ∧
      0 ≤ startOf st ∧ startOf st + st.maxLen ≤ ("abab".toList.length : Int) ∧
      manacher "abab".toList =
        .ok (slice "abab".toList (startOf st).toNat ((startOf st).toNat + st.maxLen.toNat)) := by
  refine ⟨by decide, by rfl, by rfl, ?_⟩
  obtain ⟨st, hst⟩ := (manacher_substr_in_bounds "abab".toList).1 (by decide)
  obtain ⟨-, h2, -, h4, -, h6, -⟩ := (manacher_substr_in_bounds "abab".toList).2 st hst
  exact ⟨st, hst, h2, h4, h6⟩

/-- C3, refuted as stated: on the input of `2^30` symbols `'a'` the scan has no final state,
because the constructor of the radius vector throws `std::length_error` (the `int n` narrows
to a negative value); `manacher` returns no slice. -/
theorem manacher_substr_in_bounds_counterexample :
    scan (List.replicate 1073741824 'a') = .error .lengthError ∧
    manacher (List.replicate 1073741824 'a') = .error .lengthError ∧
    ¬ ∃ st : ScanState, scan (List.replicate 1073741824 'a') = .ok st := by
  have h := scan_lengthError _ (wrap32_big30 _ (List.length_replicate 1073741824 'a'))
  refine ⟨h.1, h.2.2, ?_⟩
  rintro ⟨st, hst⟩
  rw [h.1] at hst
  cases hst

/-- C4, as amended. Leftmost tie-break for inputs shorter than `2^30` symbols: with `start` and
`L = maxLen` the offset and length at which the code cuts its result out of `s`, the result
`s[start .. start + L)` is a palindrome, no palindromic substring of `s` is longer than `L`, and
every offset `j` such that `s[j .. j + L)` is a palindrome satisfies `start ≤ j`: among the
palindromic substrings of maximal length the one with the smallest starting offset is
returned. -/
theorem manacher_leftmost (s : List Char) (hs : s.length < 1073741824) :
    ∃ st : ScanState, scan s = .ok st ∧ 0 ≤ startOf st ∧ 0 ≤ st.maxLen ∧
      (startOf st).toNat + st.maxLen.toNat ≤ s.length ∧
      manacher s = .ok (slice s (startOf st).toNat ((startOf st).toNat + st.maxLen.toNat)) ∧
      IsPalindrome (slice s (startOf st).toNat ((startOf st).toNat + st.maxLen.toNat)) ∧
      (∀ a b : Nat, a ≤ b → b ≤ s.length → IsPalindrome (slice s a b) →
        b - a ≤ st.maxLen.toNat) ∧
      ∀ j : Nat, IsPalindrome (slice s j (j + st.maxLen.toNat)) → (startOf st).toNat ≤ j := by
  obtain ⟨st, a0, L, hrun, -, hL, hstart, -, m1, m2, m3, m4, m5⟩ := manacher_spec_small s hs
  refine ⟨st, hrun, by omega, by omega, ?_, ?_, ?_, ?_, ?_⟩
  · rw [hstart, hL]
    simp only [Int.toNat_ofNat]
    exact m1
  · rw [hstart, hL]
    simp only [Int.toNat_ofNat]
    exact m2
  · rw [hstart, hL]
    simp only [Int.toNat_ofNat]
    exact isPalindrome_of_palIdx m1 m3
  · rw [hL]
    simp only [Int.toNat_ofNat]
    intro a b hab hb hp
    exact m4 a b hab hb (palIdx_of_isPalindrome hb hp)
  · rw [hstart, hL]
    simp only [Int.toNat_ofNat]
    intro j hj
    by_cases hb : j + L ≤ s.length
    · exact m5 j hb (palIdx_of_isPalindrome hb hj)
    · omega

/-- C4, at the input `"xabab"`, whose palindromic substrings of maximal length 3 start at
offsets 1 (`"aba"`) and 2 (`"bab"`), while `s[0 .. 3) = "xab"` is no palindrome: the result is
`"aba"`, cut at `start = 1`, and `start ≤ 2`. -/
theorem manacher_leftmost_witness :
    "xabab".toList.length < 1073741824 ∧
    scan "xabab".toList = .ok ⟨[0, 1, 0, 1, 0, 3, 0, 3, 0, 1, 0], 7, 10, 3, 5⟩ ∧
    startOf ⟨[0, 1, 0, 1, 0, 3, 0, 3, 0, 1, 0], 7, 10, 3, 5⟩ = 1 ∧
    manacher "xabab".toList = .ok "aba".toList ∧
    ¬ IsPalindrome (slice "xabab".toList 0 (0 + 3)) ∧
    IsPalindrome (slice "xabab".toList 2 (2 + 3)) ∧
    ∃ st : ScanState, scan "xabab".toList = .ok st ∧ st.maxLen = 3 ∧ (startOf st).toNat = 1 ∧
      (startOf st).toNat ≤ 2 := by
  refine ⟨by decide, by rfl, by rfl, by rfl, by decide, by decide, ?_⟩
  obtain ⟨st, h1, -, -, -, -, -, -, h5⟩ := manacher_leftmost "xabab".toList (by decide)
  have e : scan "xabab".toList = .ok ⟨[0, 1, 0, 1, 0, 3, 0, 3, 0, 1, 0], 7, 10, 3, 5⟩ := by rfl
  rw [e] at h1
  injection h1 with h1
  subst h1
  exact ⟨_, e, rfl, by rfl, h5 2 (by decide)⟩

/-- C4, refuted as stated: on the input of `2^31` symbols `'a'` the `int n` narrows to 1 and
`manacher` returns the empty string, which is not a palindromic substring of maximal length:
the slice `s[0 .. 1)` is a palindrome of length 1. Already on the input of `2^30` symbols
`'a'` there is no result: the call throws `std::length_error`. -/
theorem manacher_leftmost_counterexample :
    manacher (List.replicate 1073741824 'a') = .error .lengthError ∧
    manacher (List.replicate 2147483648 'a') = .ok [] ∧
    IsPalindrome (slice (List.replicate 2147483648 'a') 0 1) ∧
    (slice (List.replicate 2147483648 'a') 0 1).length = 1 ∧
    ([] : List Char).length < (slice (List.replicate 2147483648 'a') 0 1).length := by
  have h := (manacher_big31 _ (List.length_replicate 2147483648 'a')).2
  have hl : (slice (List.replicate 2147483648 'a') 0 1).length = 1 := by
    rw [slice_length _ 0 1 (by rw [List.length_replicate]; omega)]
  exact ⟨(manacher_big30 _ (List.length_replicate 1073741824 'a')).2,
    h, isPalindrome_slice_one _, hl, by rw [hl]; exact Nat.zero_lt_one⟩

/-- C5, as amended. Cross-check against the quadratic reference for inputs shorter than `2^30`
symbols (the spec asks for lengths up to 200): `manacher s` returns exactly the string (same
length, same content) computed by the brute-force reference, which expands around every
center of `s` (each symbol and each gap between two symbols) from left to right and keeps the
first palindrome of strictly greater length. -/
theorem manacher_refines_bruteForce (s : List Char) (hs : s.length < 1073741824) :
    manacher s = .ok (bruteForce s) := by
  obtain ⟨st, a, L, -, -, -, -, -, m1, m2, m3, m4, m5⟩ := manacher_spec_small s hs
  obtain ⟨A, B, b0, b1, b2, b3, b4⟩ := bruteForce_spec s
  have hLB : L = B := by
    have e1 := m4 A (A + B) (by omega) b1 b2
    have e2 := b3 a (a + L) (by omega) m1 m3
    omega
  subst hLB
  have haA : a = A := le_antisymm (m5 A b1 b2) (b4 a m1 m3)
  subst haA
  rw [m2, b0]

/-- C5, at the input `"abab"`, where two palindromes of maximal length compete: both the
reference and `manacher` return the left one, `"aba"`. -/
theorem manacher_refines_bruteForce_witness :
    ['a', 'b', 'a', 'b'].length < 1073741824 ∧
    bruteForce ['a', 'b', 'a', 'b'] = ['a', 'b', 'a'] ∧
    manacher ['a', 'b', 'a', 'b'] = .ok (bruteForce ['a', 'b', 'a', 'b']) :=
  ⟨by decide, by rfl, manacher_refines_bruteForce ['a', 'b', 'a', 'b'] (by decide)⟩

/-- C5, refuted as stated ("for every length"): on the input of `2^31` symbols `'a'`
`manacher` returns the empty string, while the reference returns a non-empty string. Already
on the input of `2^30` symbols `'a'` the call throws `std::length_error`. -/
theorem manacher_refines_bruteForce_counterexample :
    manacher (List.replicate 1073741824 'a') = .error .lengthError ∧
    manacher (List.replicate 2147483648 'a') = .ok [] ∧
    bruteForce (List.replicate 2147483648 'a') ≠ [] ∧
    manacher (List.replicate 2147483648 'a') ≠
      .ok (bruteForce (List.replicate 2147483648 'a')) := by
  have h := (manacher_big31 _ (List.length_replicate 2147483648 'a')).2
  have hb := bruteForce_ne_nil (List.replicate 2147483648 'a')
    (by rw [List.length_replicate]; omega)
  refine ⟨(manacher_big30 _ (List.length_replicate 1073741824 'a')).2, h, hb, fun heq => ?_⟩
  rw [h] at heq
  injection heq with heq
  exact hb heq.symm

/-- C6, as the code behaves: on the input `"fgjijkllkjljgf"`, `manacher` returns `"jkllkj"`, of
length 6. -/
theorem manacher_test4 :
    manacher "fgjijkllkjljgf".toList = .ok "jkllkj".toList ∧ "jkllkj".toList.length = 6 :=
  ⟨by rfl, by rfl⟩

/-- C6, refuted as stated: on the input `"fgjijkllkjljgf"`, `manacher` does not return
`"jijkllkjlj"`, a string that is not a palindrome. -/
theorem manacher_test4_counterexample :
    manacher "fgjijkllkjljgf".toList ≠ .ok "jijkllkjlj".toList ∧
    "jijkllkjlj".toList.reverse ≠ "jijkllkjlj".toList := by
  refine ⟨fun h => ?_, by decide⟩
  have e : manacher "fgjijkllkjljgf".toList = .ok "jkllkj".toList := by rfl
  rw [e] at h
  injection h with h
  exact absurd h (by decide)

/-- C7, as the code behaves: on the input `"abacdfgdcabbaabcdedcba"`, `manacher` returns
`"abcdedcba"`, of length 9, the slice at offsets 13 to 22 of the input. -/
theorem manacher_test5 :
    manacher "abacdfgdcabbaabcdedcba".toList = .ok "abcdedcba".toList ∧
    "abcdedcba".toList.length = 9 ∧
    slice "abacdfgdcabbaabcdedcba".toList 13 22 = "abcdedcba".toList :=
  ⟨by rfl, by rfl, by rfl⟩

/-- C7, refuted as stated: on the input `"abacdfgdcabbaabcdedcba"`, the string returned by
`manacher` is not `"abba"` and its length is not 4. -/
theorem manacher_test5_counterexample :
    ¬ ∃ r, manacher "abacdfgdcabbaabcdedcba".toList = .ok r ∧ (r.length = 4 ∨
      r = "abba".toList) := by
  rintro ⟨r, h, hr⟩
  have e : manacher "abacdfgdcabbaabcdedcba".toList = .ok "abcdedcba".toList := by rfl
  rw [e] at h
  injection h with h
  subst h
  revert hr
  decide

/-- C8, as amended. For every input `s` shorter than `2^30` symbols that is itself a palindrome
(`s` equals its reverse), `manacher s` returns the whole input unchanged. -/
theorem manacher_of_palindrome (s : List Char) (hs : s.length < 1073741824)
    (h : s.reverse = s) : manacher s = .ok s :=
  manacher_self_of_palindrome s hs h

/-- C8, at the input of the first test case: `"abcba"` equals its reverse and
`manacher "abcba" = "abcba"`. -/
theorem manacher_of_palindrome_witness :
    "abcba".toList.length < 1073741824 ∧ "abcba".toList.reverse = "abcba".toList ∧
    manacher "abcba".toList = .ok "abcba".toList :=
  ⟨by decide, by decide, manacher_of_palindrome "abcba".toList (by decide) (by decide)⟩

/-- C8, refuted as stated: the input of `2^31` symbols `'a'` equals its reverse, yet
`manacher` returns the empty string instead of the input (the `int n` narrows to 1 and the
scan loop is skipped). Already on the palindrome of `2^30` symbols `'a'` the call throws
`std::length_error`. -/
theorem manacher_of_palindrome_counterexample :
    manacher (List.replicate 1073741824 'a') = .error .lengthError ∧
    (List.replicate 2147483648 'a').reverse = List.replicate 2147483648 'a' ∧
    manacher (List.replicate 2147483648 'a') = .ok [] ∧
    manacher (List.replicate 2147483648 'a') ≠ .ok (List.replicate 2147483648 'a') := by
  have h := (manacher_big31 _ (List.length_replicate 2147483648 'a')).2
  refine ⟨(manacher_big30 _ (List.length_replicate 1073741824 'a')).2,
    List.reverse_replicate _ _, h, fun heq => ?_⟩
  rw [h] at heq
  injection heq with heq
  exact replicate_ne_nil 2147483648 'a' (by omega) heq.symm

/-- C9. Empty input: `manacher ""` returns the empty string. The transformed string is the
single delimiter (`n = 1`), the loop test `i < n - 1` fails at `i = 1` so that the scan loop
returns its state unchanged without entering the body, and the scan ends with `maxLen = 0`,
`centerIndex = 0` and `start = 0`. -/
theorem manacher_empty :
    manacher [] = .ok [] ∧ transform [] = ['#'] ∧ ((transform []).length : Int) = 1 ∧
    wrap32 ((transform ([] : List Char)).length : Int) = 1 ∧
    ¬ ((1 : Int) < ((transform []).length : Int) - 1) ∧
    ¬ ((1 : Int) < wrap32 (wrap32 ((transform ([] : List Char)).length : Int) - 1)) ∧
    (∀ (fuel : Nat) (st : ScanState),
      scanLoop (transform []) (wrap32 ((transform ([] : List Char)).length : Int)) (fuel + 1) 1 st
        = .ok st) ∧
    ∃ st : ScanState, scan [] = .ok st ∧
      initState (wrap32 ((transform ([] : List Char)).length : Int)) = .ok st ∧
      st = ⟨[0], 0, 0, 0, 0⟩ ∧
      st.maxLen = 0 ∧ st.centerIndex = 0 ∧ startOf st = 0 := by
  have hloop : ¬ ((1 : Int) <
      wrap32 (wrap32 ((transform ([] : List Char)).length : Int) - 1)) := by decide
  refine ⟨by rfl, by rfl, by rfl, by rfl, by decide, hloop, fun fuel st => ?_,
    ⟨⟨[0], 0, 0, 0, 0⟩, by rfl, by rfl, rfl, by rfl, by rfl, by rfl⟩⟩
  simp only [scanLoop, if_neg hloop, pure, Except.pure]

/-- C10. Single symbol: for every character `c`, the delimiter `'#'` included, `manacher`
applied to the one-character string `c` returns that one-character string. -/
theorem manacher_single (c : Char) : manacher [c] = .ok [c] :=
  manacher_self_of_palindrome [c] (by simp) (by simp)

/-- C10, at the delimiter itself: `manacher "#" = "#"`. -/
theorem manacher_single_witness : manacher ['#'] = .ok ['#'] :=
  manacher_single '#'

/-! ## Safety, termination and cost -/

theorem manacher_cases (s : List Char) (n : Int)
    (hn : n = wrap32 ((transform s).length : Int)) :
    (n < 0 → manacher s = .error .lengthError) ∧ (0 ≤ n → ∃ r, manacher s = .ok r) := by
  refine ⟨fun h => ?_, fun h => ?_⟩
  · exact (scan_lengthError s (by rw [← hn]; exact h)).2.2
  · obtain ⟨st, a, L, -, -, -, -, -, -, -, m2, -⟩ := manacher_spec s n hn h
    exact ⟨_, m2⟩

theorem manacher_ne_fault (s : List Char) (e : Fault) (he : e ≠ .lengthError) :
    manacher s ≠ .error e := by
  obtain ⟨h1, h2⟩ := manacher_cases s _ rfl
  intro h
  by_cases hneg : wrap32 ((transform s).length : Int) < 0
  · rw [h1 hneg] at h
    exact he (Except.error.inj h).symm
  · obtain ⟨r, hr⟩ := h2 (by omega)
    rw [hr] at h
    cases h

/-- C11, as amended. No invalid index access. In this embedding every subscript is a checked
read or write that fails outside the container. For an input of any length `manacher` never
fails with an access out of range, and for every input shorter than `2^30` symbols (where the
`int n` is the length of `t`) it returns a value. In every iteration that is executed, with
index `i = k + 1` (`1 ≤ i ≤ n - 2`) and started in state `st`: `p` has `n` entries and `t` at
least `n`, so the accesses `p[i]` are in bounds; if `i < right` then `mirror = 2 * center - i`
(the `int` arithmetic wraps back to this value) satisfies `0 ≤ mirror < i` and the read
`p[mirror]` succeeds; the seeding, the expand loop, the read of `p[i]` after it and the whole
body succeed; and at every radius `r` between the seed and the final `p[i]` the index
arithmetic does not wrap and, when both bounds tests of the expand loop pass, the indices
`i + (1 + r)` and `i - (1 + r)` lie in `[0, n - 1]` and both reads of `t` succeed. -/
theorem manacher_in_bounds (s : List Char) (n : Int)
    (hn : n = wrap32 ((transform s).length : Int)) :
    manacher s ≠ .error .outOfRange ∧
    (s.length < 1073741824 → n = ((transform s).length : Int) ∧ ∃ r, manacher s = .ok r) ∧
    ∀ (k : Nat) (i : Int), i = (k : Int) + 1 → i ≤ n - 2 →
      ∃ (st : ScanState) (p1 p2 : List Int) (st' : ScanState),
        stateAfter (transform s) k = .ok st ∧
        1 ≤ i ∧ (st.p.length : Int) = n ∧ n ≤ ((transform s).length : Int) ∧
        (i < st.right →
          wrap32 (wrap32 (2 * st.center) - i) = 2 * st.center - i ∧
          0 ≤ 2 * st.center - i ∧ 2 * st.center - i < i ∧
          ∃ pm, readAt st.p (wrap32 (wrap32 (2 * st.center) - i)) = .ok pm) ∧
        seed st i = .ok p1 ∧ (p1.length : Int) = n ∧ 0 ≤ nth p1 i ∧
        expandLoop (transform s) n i (transform s).length p1 = .ok p2 ∧
        (p2.length : Int) = n ∧
        (∃ pi, readAt p2 i = .ok pi) ∧
        scanBody (transform s) n i st = .ok st' ∧
        ∀ r : Int, nth p1 i ≤ r → r ≤ nth p2 i →
          wrap32 (i + wrap32 (1 + r)) = i + (1 + r) ∧
          wrap32 (i - wrap32 (1 + r)) = i - (1 + r) ∧
          (i + (1 + r) < n ∧ i - (1 + r) ≥ 0 →
            0 ≤ i - (1 + r) ∧ i + (1 + r) ≤ n - 1 ∧
            (∃ a, readAt (transform s) (i + (1 + r)) = .ok a) ∧
            ∃ b, readAt (transform s) (i - (1 + r)) = .ok b) := by
  refine ⟨manacher_ne_fault s _ (by decide), fun hs => ?_, fun k i hi hk => ?_⟩
  · obtain ⟨hw, -, h0⟩ := small_n s hs
    exact ⟨by rw [hn, hw], (manacher_cases s n hn).2 (by rw [hn, hw]; exact h0)⟩
  · obtain ⟨st, hst, hinv, hi1, hi2⟩ := iteration_state s n hn k i hi hk
    obtain ⟨p1, p2, hseed, hexp, hbody, -, hlen1, hlen2, hpal1, hmax, hle, -, -, -, hm, -⟩ :=
      scanBody_detail hinv hi1 hi2
    have hlen := hinv.len
    have hfit := hinv.fits
    have hsm := hinv.small
    have hr0 := hpal1.1
    have hb1 := hmax.1.2.1
    have hb2 := hmax.1.2.2.1
    refine ⟨st, p1, p2, _, hst, hi1, hlen, hfit, ?_, hseed, hlen1, hr0, hexp, hlen2, ?_, hbody,
      ?_⟩
    · intro hr
      obtain ⟨hm1, hm2⟩ := hm hr
      have hwm : wrap32 (wrap32 (2 * st.center) - i) = 2 * st.center - i :=
        wrap32_mirror (by omega) (by omega)
      refine ⟨hwm, by omega, hm2, ?_⟩
      rw [hwm]
      exact (readAt_ok_iff _ _).mpr ⟨by omega, by omega⟩
    · exact (readAt_ok_iff _ _).mpr ⟨by omega, by omega⟩
    · intro r hr1 hr2
      have hw1 : wrap32 (1 + r) = 1 + r := wrap32_eq (by omega) (by omega)
      refine ⟨?_, ?_, fun hg => ?_⟩
      · rw [hw1]; exact wrap32_eq (by omega) (by omega)
      · rw [hw1]; exact wrap32_eq (by omega) (by omega)
      · exact ⟨by omega, by omega, (readAt_ok_iff _ _).mpr ⟨by omega, by omega⟩,
          (readAt_ok_iff _ _).mpr ⟨by omega, by omega⟩⟩

/-- C11, at the input `"aba"` (`n = 7`) in the iteration with index 4 (`k = 3`): the window is
`center = 3`, `right = 6`, the mirrored index is `2`, and the access `p[2]` is in bounds. -/
theorem manacher_in_bounds_witness :
    (7 : Int) = wrap32 ((transform "aba".toList).length : Int) ∧
    "aba".toList.length < 1073741824 ∧
    stateAfter (transform "aba".toList) 3 = .ok ⟨[0, 1, 0, 3, 0, 0, 0], 3, 6, 3, 3⟩ ∧
    manacher "aba".toList = .ok "aba".toList ∧
    ∃ (st : ScanState) (st' : ScanState), stateAfter (transform "aba".toList) 3 = .ok st ∧
      scanBody (transform "aba".toList) 7 4 st = .ok st' ∧
      ((4 : Int) < st.right → 0 ≤ 2 * st.center - 4 ∧ 2 * st.center - 4 < 4) := by
  refine ⟨by rfl, by decide, by rfl, by rfl, ?_⟩
  obtain ⟨st, p1, p2, st', h1, -, -, -, h4, -, -, -, -, -, -, h11, -⟩ :=
    (manacher_in_bounds "aba".toList 7 (by rfl)).2.2 3 4 (by decide) (by decide)
  exact ⟨st, st', h1, h11, fun hr => ⟨(h4 hr).2.1, (h4 hr).2.2.1⟩⟩

/-- C11, refuted as stated ("returns a value, never an error, for every input"): on the input
of `2^30` symbols `'a'` the `int n` narrows to `-2147483647` and the constructor of the radius
vector throws `std::length_error`. -/
theorem manacher_in_bounds_counterexample :
    wrap32 ((transform (List.replicate 1073741824 'a')).length : Int) < 0 ∧
    manacher (List.replicate 1073741824 'a') = .error .lengthError ∧
    ¬ ∃ r, manacher (List.replicate 1073741824 'a') = .ok r := by
  have hw := wrap32_big30 _ (List.length_replicate 1073741824 'a')
  have h := (scan_lengthError _ hw).2.2
  refine ⟨hw, h, ?_⟩
  rintro ⟨r, hr⟩
  rw [h] at hr
  cases hr

/-- C12. Termination. For every input, of any length, the run of `manacher` ends: it never
exhausts the fuel the embedding supplies; it throws `std::length_error` when the `int n` is
negative and returns a value otherwise. More fuel never changes a result: the scan loop
started at `i = 1` needs one unit of fuel per index `1 ≤ i ≤ n - 2` and one for the final
test. In every iteration that is executed (index `i = k + 1`), the expand loop started at the
seed radius `p1[i] ≥ 0` ends with a radius `p2[i] ≤ min(i, n - 1 - i)`; each of its rounds
increases `p[i]` by one, so it returns `p2` with any fuel exceeding `p2[i] - p1[i]`. -/
theorem manacher_terminates (s : List Char) (n : Int)
    (hn : n = wrap32 ((transform s).length : Int)) :
    manacher s ≠ .error .fuelExhausted ∧
    (n < 0 → manacher s = .error .lengthError) ∧
    (0 ≤ n → ∃ r, manacher s = .ok r) ∧
    (0 ≤ n → ∀ fuel : Nat, (n - 2).toNat < fuel →
      scanLoop (transform s) n fuel 1 (zeroState n) = scan s) ∧
    ∀ (k : Nat) (i : Int), i = (k : Int) + 1 → i ≤ n - 2 →
      ∃ (st : ScanState) (p1 p2 : List Int),
        stateAfter (transform s) k = .ok st ∧ seed st i = .ok p1 ∧
        expandLoop (transform s) n i (transform s).length p1 = .ok p2 ∧
        0 ≤ nth p1 i ∧ nth p1 i ≤ nth p2 i ∧
        nth p2 i ≤ min i (n - 1 - i) ∧
        ∀ fuel : Nat, nth p2 i - nth p1 i < fuel →
          expandLoop (transform s) n i fuel p1 = .ok p2 := by
  have hw := wrap32_nat (transform s).length
  have hodd := (transform_wrap s).1
  rw [← hn] at hw hodd
  refine ⟨manacher_ne_fault s _ (by decide), (manacher_cases s n hn).1,
    (manacher_cases s n hn).2, fun h0 fuel hf => ?_, fun k i hi hk => ?_⟩
  · have e1 : ((0 : Nat) : Int) + 1 = 1 := by norm_num
    have hst0 : stateAfter (transform s) 0 = .ok (zeroState n) := by
      simp only [stateAfter, ← hn]
      exact initState_ok n h0
    have hinv0 : Inv (transform s) n (((0 : Nat) : Int) + 1) (zeroState n) := by
      rw [e1]
      exact zeroState_inv (transform s) n (hw.2.2 h0) hw.1 h0
    have := scanLoop_stateAfter (transform s) n hn (n - 2).toNat 0 fuel
      (zeroState n) hst0 hinv0 hf (by rw [e1]; omega)
    rw [e1, Nat.zero_add] at this
    rw [this, scan_eq_stateAfter, ← hn]
  · obtain ⟨st, hst, hinv, hi1, hi2⟩ := iteration_state s n hn k i hi hk
    obtain ⟨p1, p2, hseed, hexp, -, -, hlen1, -, hpal1, hmax, hle, -⟩ :=
      scanBody_detail hinv hi1 hi2
    obtain ⟨-, hfuel⟩ := expandLoop_fuel (transform s) n i hinv.fits hinv.small (by omega)
      (by omega) (transform s).length p1 p2 hlen1 hpal1.1 hpal1.2.2.1 hexp
    have hb1 := hmax.1.2.1
    have hb2 := hmax.1.2.2.1
    exact ⟨st, p1, p2, hst, hseed, hexp, hpal1.1, hle, by omega, hfuel⟩

/-- C12, at the input `"aba"` (`n = 7`): the scan loop returns the same final state with fuel
6 as with the fuel 7 of the embedding, and in the iteration with index 3 the expand loop,
started at radius 0, ends at radius 3 with fuel 4. -/
theorem manacher_terminates_witness :
    (7 : Int) = wrap32 ((transform "aba".toList).length : Int) ∧
    scanLoop (transform "aba".toList) 7 6 1 (zeroState 7) = scan "aba".toList ∧
    scan "aba".toList = .ok ⟨[0, 1, 0, 3, 0, 1, 0], 3, 6, 3, 3⟩ ∧
    ∃ (st : ScanState) (p1 p2 : List Int),
      stateAfter (transform "aba".toList) 2 = .ok st ∧ seed st 3 = .ok p1 ∧
      nth p2 3 ≤ min 3 ((7 : Int) - 1 - 3) ∧
      (nth p2 3 - nth p1 3 < ((4 : Nat) : Int) →
        expandLoop (transform "aba".toList) 7 3 4 p1 = .ok p2) := by
  refine ⟨by rfl, (manacher_terminates "aba".toList 7 (by rfl)).2.2.2.1 (by decide) 6
    (by decide), by rfl, ?_⟩
  obtain ⟨st, p1, p2, h1, h2, -, -, -, h6, h7⟩ :=
    (manacher_terminates "aba".toList 7 (by rfl)).2.2.2.2 2 3 (by decide) (by decide)
  exact ⟨st, p1, p2, h1, h2, h6, h7 4⟩

/-- C13. Linear work. A ghost counter of the evaluations of the symbol comparison
`t[..] == t[..]` is threaded through the scan. For every input, of any length: if the
`int n` is negative the run ends in the constructor of the radius vector, before any
comparison; otherwise the counted scan ends in the same state as the scan and its count `c`
satisfies `c ≤ right + (n - 2)` (`c = 0` when `n = 1`), where `right ≤ n - 1` is the final
window boundary; hence `c ≤ 2 n ≤ 2 (2 |s| + 1)`. In each executed iteration the count grows
by at most the growth of `right` plus one: the successful comparisons of an iteration number
at most the growth of `right`, and at most one comparison fails. -/
theorem comparisons_linear (s : List Char) (n : Int)
    (hn : n = wrap32 ((transform s).length : Int)) :
    (n < 0 → scanC s = .error .lengthError ∧ scan s = .error .lengthError) ∧
    (0 ≤ n → ∃ (st : ScanState) (c : Nat), scanC s = .ok (st, c) ∧ scan s = .ok st ∧
      (c : Int) ≤ st.right + ((n - 2).toNat : Int) ∧ st.right ≤ n - 1 ∧
      (c : Int) ≤ 2 * n ∧ c ≤ 2 * (2 * s.length + 1)) ∧
    ∀ (k : Nat) (i : Int) (cnt : Nat), i = (k : Int) + 1 → i ≤ n - 2 →
      ∃ (st st' : ScanState) (c : Nat), stateAfter (transform s) k = .ok st ∧
        scanBodyC (transform s) n i st cnt = .ok (st', c) ∧
        scanBody (transform s) n i st = .ok st' ∧
        st.right ≤ st'.right ∧ cnt ≤ c ∧ (c : Int) ≤ cnt + (st'.right - st.right) + 1 := by
  have hl := transform_length s
  have hw := wrap32_nat (transform s).length
  have hodd := (transform_wrap s).1
  rw [← hn] at hw hodd
  refine ⟨fun h => ?_, fun h0 => ?_, fun k i cnt hi hk => ?_⟩
  · have := scan_lengthError s (by rw [← hn]; exact h)
    exact ⟨this.2.1, this.1⟩
  · obtain ⟨st, c, hC, hrun, hinv, hc⟩ := scanC_ok s n hn h0
    have hpal := hinv.center_pal (by omega)
    have hreq := hinv.right_eq
    have hb := hpal.2.2.1
    have hfit := hw.2.2 h0
    rw [hl] at hfit
    push_cast at hfit
    exact ⟨st, c, hC, hrun, by omega, by omega, by omega, by omega⟩
  · obtain ⟨st, hst, hinv, hi1, hi2⟩ := iteration_state s n hn k i hi hk
    obtain ⟨st', c, h1, h2, -, h4, h5, h6⟩ := scanBodyC_spec hinv hi1 hi2 cnt
    exact ⟨st, st', c, hst, h1, h2, h4, h5, h6⟩

/-- C13, at the input `"aba"` (`n = 7`): the scan makes 6 symbol comparisons, and the iteration
with index 3, entered with count 0, makes at most the growth of `right` plus one. -/
theorem comparisons_linear_witness :
    (7 : Int) = wrap32 ((transform "aba".toList).length : Int) ∧
    scanC "aba".toList = .ok (⟨[0, 1, 0, 3, 0, 1, 0], 3, 6, 3, 3⟩, 6) ∧
    ∃ (st st' : ScanState) (c : Nat), stateAfter (transform "aba".toList) 2 = .ok st ∧
      scanBodyC (transform "aba".toList) 7 3 st 0 = .ok (st', c) ∧
      (c : Int) ≤ 0 + (st'.right - st.right) + 1 := by
  refine ⟨by rfl, by rfl, ?_⟩
  obtain ⟨st, st', c, h1, h2, -, -, -, h6⟩ :=
    (comparisons_linear "aba".toList 7 (by rfl)).2.2 2 3 0 (by decide) (by decide)
  exact ⟨st, st', c, h1, h2, by simpa using h6⟩

/-- C14. Transform: for every input `s` of length `m` the transformed string `t` has length
exactly `2 m + 1`, every even index of `t` holds the delimiter `'#'`, every odd index `i` of `t`
holds `s[(i - 1) / 2]`, and for the empty input `t` is the single delimiter. -/
theorem transform_layout (s : List Char) :
    (transform s).length = 2 * s.length + 1 ∧
    (∀ i : Nat, i < 2 * s.length + 1 → i % 2 = 0 → (transform s)[i]? = some '#') ∧
    (∀ i : Nat, i < 2 * s.length + 1 → i % 2 = 1 →
      (i - 1) / 2 < s.length ∧ (transform s)[i]? = s[(i - 1) / 2]?) ∧
    transform [] = ['#'] := by
  refine ⟨transform_length s, fun i hi hpar => ?_, fun i hi hpar => ⟨by omega, ?_⟩, rfl⟩
  · have e : i = 2 * (i / 2) := by omega
    rw [e]
    exact transform_even s (i / 2) (by omega)
  · have e : i = 2 * ((i - 1) / 2) + 1 := by omega
    have h := transform_odd s ((i - 1) / 2)
    rw [← e] at h
    exact h

/-- C14, at the input `"ab"`: the transformed string is `"#a#b#"`, and its index 3 holds
`s[1] = 'b'`. -/
theorem transform_layout_witness :
    transform "ab".toList = "#a#b#".toList ∧
    (transform "ab".toList)[3]? = "ab".toList[(3 - 1) / 2]? ∧
    (transform "ab".toList)[4]? = some '#' :=
  ⟨by rfl, ((transform_layout "ab".toList).2.2.1 3 (by decide) (by decide)).2,
    (transform_layout "ab".toList).2.1 4 (by decide) (by decide)⟩

/-! ## Invariants of the scan -/

theorem scan_ok_small (s : List Char) (hs : s.length < 1073741824) :
    ∃ st, scan s = .ok st ∧
      Inv (transform s) ((transform s).length : Int)
        (max 1 (((transform s).length : Int) - 1)) st ∧
      ((transform s).length : Int) = wrap32 ((transform s).length : Int) ∧
      ((transform s).length : Int) = 2 * (s.length : Int) + 1 := by
  obtain ⟨hw, hl, h0⟩ := small_n s hs
  obtain ⟨st, hrun, hinv⟩ := scan_ok s ((transform s).length : Int) hw.symm h0
  exact ⟨st, hrun, hinv, hw.symm, hl⟩

/-- C15, as amended. Radius array invariant for inputs shorter than `2^30` symbols. After the
scan, for every index `i` of the transformed string `t` (`0 ≤ i ≤ n - 1`, `n` the length of
`t`), the segment `t[i - p[i] .. i + p[i]]` is in bounds and is a palindrome, and it is
maximal: `i - p[i] - 1 < 0`, or `i + p[i] + 1 > n - 1`, or
`t[i - p[i] - 1] ≠ t[i + p[i] + 1]`; no symmetric in-bounds segment about `i` has a larger
radius. In particular, in every iteration with `i < right` the seed
`min(right - i, p[mirror])` is at most the final `p[i]`. -/
theorem radius_invariant (s : List Char) (hs : s.length < 1073741824) :
    ∃ st : ScanState, scan s = .ok st ∧
      (∀ i : Int, 0 ≤ i → i ≤ ((transform s).length : Int) - 1 →
        0 ≤ nth st.p i ∧ 0 ≤ i - nth st.p i ∧
        i + nth st.p i ≤ ((transform s).length : Int) - 1 ∧
        IsPalindrome (slice (transform s) (i - nth st.p i).toNat (i + nth st.p i + 1).toNat) ∧
        (i - nth st.p i - 1 < 0 ∨ i + nth st.p i + 1 > ((transform s).length : Int) - 1 ∨
          nth (transform s) (i - nth st.p i - 1) ≠ nth (transform s) (i + nth st.p i + 1)) ∧
        ∀ r : Int, PalAt (transform s) ((transform s).length : Int) i r → r ≤ nth st.p i) ∧
      ∀ (k : Nat) (i : Int), i = (k : Int) + 1 → i ≤ ((transform s).length : Int) - 2 →
        ∃ sk : ScanState, stateAfter (transform s) k = .ok sk ∧
          (i < sk.right → min (sk.right - i) (nth sk.p (2 * sk.center - i)) ≤ nth st.p i) := by
  obtain ⟨st, hrun, hinv, hw, hl⟩ := scan_ok_small s hs
  refine ⟨st, hrun, fun i h0 h1 => ?_, fun k i hi hk => ?_⟩
  · have hm := final_maxPal hinv i h0 h1
    obtain ⟨⟨a1, a2, a3, a4⟩, hmax⟩ := hm
    refine ⟨a1, by omega, by omega, palAt_isPalindrome (le_refl _) ⟨a1, a2, a3, a4⟩, ?_,
      fun r hr => MaxPal.le_of_palAt ⟨⟨a1, a2, a3, a4⟩, hmax⟩ hr⟩
    by_cases hb1 : i - nth st.p i - 1 < 0
    · exact Or.inl hb1
    · by_cases hb2 : i + nth st.p i + 1 > ((transform s).length : Int) - 1
      · exact Or.inr (Or.inl hb2)
      · refine Or.inr (Or.inr fun heq => ?_)
        have := hmax (by omega) (by omega)
        have e1 : i + (nth st.p i + 1) = i + nth st.p i + 1 := by ring
        have e2 : i - (nth st.p i + 1) = i - nth st.p i - 1 := by ring
        rw [e1, e2] at this
        exact this heq.symm
  · obtain ⟨sk, hsk, hinvk, hi1, hi2⟩ := iteration_state s _ hw k i hi hk
    obtain ⟨p1, p2, -, -, -, -, -, -, hpal1, -, -, -, hs1, -⟩ := scanBody_detail hinvk hi1 hi2
    refine ⟨sk, hsk, fun hr => ?_⟩
    rw [← hs1 hr]
    exact (final_maxPal hinv i (by omega) (by omega)).le_of_palAt hpal1

/-- C15, at the input `"aba"`: the final radius vector is `[0, 1, 0, 3, 0, 1, 0]`; about the
index 3 the segment of radius 3 is the whole transformed string, and in the iteration with
index 5 the seed `min(6 - 5, p[1]) = 1` does not exceed the final `p[5] = 1`. -/
theorem radius_invariant_witness :
    "aba".toList.length < 1073741824 ∧
    scan "aba".toList = .ok ⟨[0, 1, 0, 3, 0, 1, 0], 3, 6, 3, 3⟩ ∧
    stateAfter (transform "aba".toList) 4 = .ok ⟨[0, 1, 0, 3, 0, 0, 0], 3, 6, 3, 3⟩ ∧
    ∃ (st sk : ScanState), scan "aba".toList = .ok st ∧
      IsPalindrome (slice (transform "aba".toList) (3 - nth st.p 3).toNat
        (3 + nth st.p 3 + 1).toNat) ∧
      stateAfter (transform "aba".toList) 4 = .ok sk ∧
      ((5 : Int) < sk.right → min (sk.right - 5) (nth sk.p (2 * sk.center - 5)) ≤ nth st.p 5) := by
  refine ⟨by decide, by rfl, by rfl, ?_⟩
  obtain ⟨st, h1, h2, h3⟩ := radius_invariant "aba".toList (by decide)
  obtain ⟨sk, h4, h5⟩ := h3 4 5 (by decide) (by decide)
  exact ⟨st, sk, h1, (h2 3 (by decide) (by decide)).2.2.2.1, h4, h5⟩

/-- C15, refuted as stated: on the input of `2^30` symbols `'a'` there is no radius array
after the scan, because the constructor `std::vector<int> p(n, 0)` throws
`std::length_error` (the `int n` narrows to a negative value). -/
theorem radius_invariant_counterexample :
    initState (wrap32 ((transform (List.replicate 1073741824 'a')).length : Int))
      = .error .lengthError ∧
    scan (List.replicate 1073741824 'a') = .error .lengthError ∧
    ¬ ∃ st : ScanState, scan (List.replicate 1073741824 'a') = .ok st := by
  have hw := wrap32_big30 _ (List.length_replicate 1073741824 'a')
  have h := (scan_lengthError _ hw).1
  refine ⟨initState_neg _ hw, h, ?_⟩
  rintro ⟨st, hst⟩
  rw [h] at hst
  cases hst

/-- C16. Scan-window invariant, for every input of any length, with `n` the `int` length of the
code. The scan ends in the state reached after its `n - 2` iterations, and across every
executed iteration (index `i = k + 1`, from state `st` to state `st'`) the value of `right`
does not decrease; `center` changes only if `right` strictly increases (and then becomes `i`);
after the iteration `right = center + p[center]` with `right ≤ n - 1`, and `j + p[j] ≤ right`
for every index `j` scanned so far. -/
theorem window_monotone (s : List Char) (n : Int)
    (hn : n = wrap32 ((transform s).length : Int)) :
    scan s = stateAfter (transform s) (n - 2).toNat ∧
    ∀ (k : Nat) (i : Int), i = (k : Int) + 1 → i ≤ n - 2 →
      ∃ (st st' : ScanState), stateAfter (transform s) k = .ok st ∧
        stateAfter (transform s) (k + 1) = .ok st' ∧
        st.right ≤ st'.right ∧
        (st'.center ≠ st.center → st.right < st'.right ∧ st'.center = i) ∧
        st'.right = st'.center + nth st'.p st'.center ∧
        st'.right ≤ n - 1 ∧
        ∀ j : Int, 1 ≤ j → j ≤ i → j + nth st'.p j ≤ st'.right := by
  refine ⟨by rw [hn]; exact scan_eq_stateAfter s, fun k i hi hk => ?_⟩
  obtain ⟨st, hst, hinv, hi1, hi2⟩ := iteration_state s n hn k i hi hk
  obtain ⟨p1, p2, -, -, hbody, hinv', -, -, -, hmax, -⟩ := scanBody_detail hinv hi1 hi2
  have hsm := hinv.small
  have hr0 := hmax.1.1
  have hrn := hmax.1.2.2.1
  have hwi : wrap32 (i + nth p2 i) = i + nth p2 i := wrap32_eq (by omega) (by omega)
  have hW := updateWindow_cases { st with p := p2 } i (nth p2 i) hwi
  have hC := trackBest_center (updateWindow { st with p := p2 } i (nth p2 i)) i (nth p2 i)
  have hR := trackBest_right (updateWindow { st with p := p2 } i (nth p2 i)) i (nth p2 i)
  have hst' : stateAfter (transform s) (k + 1) =
      .ok (trackBest (updateWindow { st with p := p2 } i (nth p2 i)) i (nth p2 i)) := by
    simp only [stateAfter, hst, bind, Except.bind]
    rw [← hn, ← hi]
    exact hbody
  have hpal := hinv'.center_pal (by omega)
  have hreq := hinv'.right_eq
  have hreach := hinv'.reach
  have hb := hpal.2.2.1
  refine ⟨st, _, hst, hst', ?_, ?_, hreq, by omega, fun j hj1 hj2 => hreach j hj1 (by omega)⟩
  · rw [hR]
    rcases hW with ⟨a, _, b⟩ | ⟨a, _, b⟩
    · rw [b]; exact le_of_lt a
    · rw [b]
  · rw [hR, hC]
    rcases hW with ⟨a, b, c⟩ | ⟨a, b, c⟩
    · intro _
      rw [b, c]
      exact ⟨a, rfl⟩
    · intro hne
      exact absurd b hne

/-- C16, at the input `"aba"` (`n = 7`) in the iteration with index 3: the window moves from
`center = 1`, `right = 2` to `center = 3`, `right = 6`. -/
theorem window_monotone_witness :
    (7 : Int) = wrap32 ((transform "aba".toList).length : Int) ∧
    stateAfter (transform "aba".toList) 2 = .ok ⟨[0, 1, 0, 0, 0, 0, 0], 1, 2, 1, 1⟩ ∧
    stateAfter (transform "aba".toList) 3 = .ok ⟨[0, 1, 0, 3, 0, 0, 0], 3, 6, 3, 3⟩ ∧
    ∃ (st st' : ScanState), stateAfter (transform "aba".toList) 2 = .ok st ∧
      stateAfter (transform "aba".toList) (2 + 1) = .ok st' ∧ st.right ≤ st'.right ∧
      st'.right = st'.center + nth st'.p st'.center := by
  refine ⟨by rfl, by rfl, by rfl, ?_⟩
  obtain ⟨st, st', h1, h2, h3, -, h5, -⟩ :=
    (window_monotone "aba".toList 7 (by rfl)).2 2 3 (by decide) (by decide)
  exact ⟨st, st', h1, h2, h3, h5⟩

/-- C17, as amended. Best-result tracker for inputs shorter than `2^30` symbols. At the end of
the scan `maxLen` is the maximum of `p[i]` over the scanned indices `1 ≤ i ≤ n - 2`: it bounds
every such `p[i]` and equals `p[centerIndex]`; `centerIndex` is the smallest scanned index with
`p[i] = maxLen`. For the empty input (no scanned index) `maxLen = 0` and `centerIndex = 0`; for
every non-empty input `1 ≤ centerIndex ≤ n - 2`, so neither boundary position `0`, `n - 1` is
the center of the best result. -/
theorem tracker_final (s : List Char) (hs : s.length < 1073741824) :
    ∃ st : ScanState, scan s = .ok st ∧
      (∀ i : Int, 1 ≤ i → i ≤ ((transform s).length : Int) - 2 → nth st.p i ≤ st.maxLen) ∧
      nth st.p st.centerIndex = st.maxLen ∧
      (∀ i : Int, 1 ≤ i → i ≤ ((transform s).length : Int) - 2 → nth st.p i = st.maxLen →
        st.centerIndex ≤ i) ∧
      (s = [] → st.maxLen = 0 ∧ st.centerIndex = 0) ∧
      (s ≠ [] → 1 ≤ st.centerIndex ∧ st.centerIndex ≤ ((transform s).length : Int) - 2 ∧
        1 ≤ st.maxLen) := by
  obtain ⟨st, hrun, hinv, hw, hl⟩ := scan_ok_small s hs
  have hblo := hinv.best_lo
  have hbhi := hinv.best_hi
  have hbeq := hinv.best_eq
  refine ⟨st, hrun, fun i h1 h2 => hinv.best_max i h1 (by omega), hbeq, fun i h1 h2 he => ?_,
    fun hs => ?_, fun hs => ?_⟩
  · by_contra hlt
    have := hinv.best_first i h1 (by omega)
    omega
  · subst hs
    have hc : st.centerIndex = 0 := by
      simp only [List.length_nil] at hl
      omega
    have hz := hinv.fresh st.centerIndex hblo (Or.inl hc)
    exact ⟨by rw [← hbeq]; exact hz, hc⟩
  · have hpos : 0 < s.length := List.length_pos.mpr hs
    have h1 := (hinv.radii 1 (le_refl 1) (by omega)).le_of_palAt
      (palAt_one s _ (by omega) (by omega))
    have h2 := hinv.best_max 1 (le_refl 1) (by omega)
    have hc : st.centerIndex ≠ 0 := by
      intro hc
      have hz := hinv.fresh st.centerIndex hblo (Or.inl hc)
      omega
    exact ⟨by omega, by omega, by omega⟩

/-- C17, at the input `"abab"`, whose radius vector `[0, 1, 0, 3, 0, 3, 0, 1, 0]` attains its
maximum 3 at the indices 3 and 5: the tracker ends with `maxLen = 3`, `centerIndex = 3`. -/
theorem tracker_final_witness :
    "abab".toList.length < 1073741824 ∧
    scan "abab".toList = .ok ⟨[0, 1, 0, 3, 0, 3, 0, 1, 0], 5, 8, 3, 3⟩ ∧
    ∃ st : ScanState, scan "abab".toList = .ok st ∧
      (nth st.p 5 = st.maxLen → st.centerIndex ≤ 5) ∧
      1 ≤ st.centerIndex ∧ st.centerIndex ≤ ((transform "abab".toList).length : Int) - 2 := by
  refine ⟨by decide, by rfl, ?_⟩
  obtain ⟨st, h1, -, -, h4, -, h6⟩ := tracker_final "abab".toList (by decide)
  exact ⟨st, h1, h4 5 (by decide) (by decide), (h6 (by decide)).1, (h6 (by decide)).2.1⟩

/-- C17, refuted as stated: the input of `2^31` symbols `'a'` is not empty, yet the scan ends
with `centerIndex = 0` and `maxLen = 0`: the `int n` narrows to 1 and no index is scanned.
Already on the input of `2^30` symbols `'a'` the scan has no final state: the constructor of
the radius vector throws `std::length_error`. -/
theorem tracker_final_counterexample :
    scan (List.replicate 1073741824 'a') = .error .lengthError ∧
    List.replicate 2147483648 'a' ≠ [] ∧
    wrap32 ((transform (List.replicate 2147483648 'a')).length : Int) = 1 ∧
    ∃ st : ScanState, scan (List.replicate 2147483648 'a') = .ok st ∧
      st.centerIndex = 0 ∧ st.maxLen = 0 ∧ ¬ (1 ≤ st.centerIndex) := by
  obtain ⟨st, h1, h2, h3⟩ := (manacher_big31 _ (List.length_replicate 2147483648 'a')).1
  exact ⟨(manacher_big30 _ (List.length_replicate 1073741824 'a')).1,
    replicate_ne_nil _ _ (by omega),
    wrap32_big31 _ (List.length_replicate 2147483648 'a'), st, h1, h2, h3, by omega⟩

/-- C18, as amended. Exact offset arithmetic for inputs shorter than `2^30` symbols. After the
scan, for every index `i` of the transformed string the radius `p[i]` has the parity of `i`;
hence `centerIndex - maxLen` is even and non-negative and the division in
`start = (centerIndex - maxLen) / 2` is exact, `2 * start = centerIndex - maxLen`, whatever
the parity of the length of the result; and the segment of radius `maxLen` about `centerIndex`
in `t` is exactly the transform of the slice `s[start .. start + maxLen)`, which is the value
`manacher` returns. -/
theorem radius_parity (s : List Char) (hs : s.length < 1073741824) :
    ∃ st : ScanState, scan s = .ok st ∧
      (∀ i : Int, 0 ≤ i → i ≤ ((transform s).length : Int) - 1 → nth st.p i % 2 = i % 2) ∧
      (st.centerIndex - st.maxLen) % 2 = 0 ∧ 0 ≤ st.centerIndex - st.maxLen ∧
      wrap32 (st.centerIndex - st.maxLen) = st.centerIndex - st.maxLen ∧
      2 * startOf st = st.centerIndex - st.maxLen ∧ 0 ≤ st.maxLen ∧
      manacher s = .ok (slice s (startOf st).toNat ((startOf st).toNat + st.maxLen.toNat)) ∧
      slice (transform s) (st.centerIndex - st.maxLen).toNat
          (st.centerIndex + st.maxLen + 1).toNat =
        transform (slice s (startOf st).toNat ((startOf st).toNat + st.maxLen.toNat)) := by
  obtain ⟨hw, hl, h0⟩ := small_n s hs
  obtain ⟨st, a, L, hrun, hinv, hL, hstart, hc, -, hbound, m2, -, -, -⟩ :=
    manacher_spec s ((transform s).length : Int) hw.symm h0
  refine ⟨st, hrun, fun i h0 h1 => ?_, by omega, by omega, wrap32_eq (by omega) (by omega),
    by omega, by omega, ?_, ?_⟩
  · have := (final_maxPal hinv i h0 h1).parity (by omega) (by omega)
    omega
  · rw [hstart, hL]
    simp only [Int.toNat_ofNat]
    exact m2
  · rw [hstart, hL, hc]
    simp only [Int.toNat_ofNat]
    have e1 : (2 * (a : Int) + L - L).toNat = 2 * a := by omega
    have e2 : (2 * (a : Int) + L + L + 1).toNat = 2 * a + (2 * L + 1) := by omega
    rw [e1, e2, ← transform_slice s a L hbound]
    simp only [slice]
    have e3 : 2 * a + (2 * L + 1) - 2 * a = 2 * L + 1 := by omega
    rw [e3]

/-- C18, at an input with a result of even length and at one with a result of odd length:
on `"abba"` the scan ends with `centerIndex = 4`, `maxLen = 4`, `start = 0`, and on `"xaba"`
with `centerIndex = 5`, `maxLen = 3`, `start = 1`; in both the division is exact. -/
theorem radius_parity_witness :
    "xaba".toList.length < 1073741824 ∧
    scan "abba".toList = .ok ⟨[0, 1, 0, 1, 4, 1, 0, 1, 0], 4, 8, 4, 4⟩ ∧
    scan "xaba".toList = .ok ⟨[0, 1, 0, 1, 0, 3, 0, 1, 0], 5, 8, 3, 5⟩ ∧
    manacher "xaba".toList = .ok "aba".toList ∧
    ∃ st : ScanState, scan "xaba".toList = .ok st ∧
      2 * startOf st = st.centerIndex - st.maxLen ∧ nth st.p 5 % 2 = 5 % 2 := by
  refine ⟨by decide, by rfl, by rfl, by rfl, ?_⟩
  obtain ⟨st, h1, h2, -, -, -, h5, -⟩ := radius_parity "xaba".toList (by decide)
  exact ⟨st, h1, h5, h2 5 (by decide) (by decide)⟩

/-- C18, refuted as stated: on the input of `2^30` symbols `'a'` the call throws
`std::length_error` at the construction of the radius vector, so there is no final radius
`p[i]`, no `centerIndex`, no `maxLen` and no result. -/
theorem radius_parity_counterexample :
    wrap32 ((transform (List.replicate 1073741824 'a')).length : Int) < 0 ∧
    scan (List.replicate 1073741824 'a') = .error .lengthError ∧
    manacher (List.replicate 1073741824 'a') = .error .lengthError ∧
    ¬ ∃ st : ScanState, scan (List.replicate 1073741824 'a') = .ok st := by
  have hw := wrap32_big30 _ (List.length_replicate 1073741824 'a')
  have h := scan_lengthError _ hw
  refine ⟨hw, h.1, h.2.2, ?_⟩
  rintro ⟨st, hst⟩
  rw [h.1] at hst
  cases hst

/-- C19. Case 1 of the mirror rule, for every input of any length, with `n` the `int` length of
the code. In every scan iteration (index `i = k + 1`, entered in state `st`) with `i < right`
and `p[mirror] < right - i`, the 32-bit computations of `mirror` and of `right - i` do not
overflow, and the expand loop performs no successful round: it returns the seeded vector
unchanged after at most one symbol comparison, so that the radius at `i` is `p[mirror]`, also
in the final state of the scan. -/
theorem mirror_case_one (s : List Char) (n : Int)
    (hn : n = wrap32 ((transform s).length : Int)) (k : Nat) (i : Int) (st : ScanState)
    (hi : i = (k : Int) + 1) (hk : i ≤ n - 2)
    (hst : stateAfter (transform s) k = .ok st) (hr : i < st.right)
    (hlt : nth st.p (2 * st.center - i) < st.right - i) :
    wrap32 (wrap32 (2 * st.center) - i) = 2 * st.center - i ∧
    wrap32 (st.right - i) = st.right - i ∧
    ∃ (p1 : List Int) (stF : ScanState),
      seed st i = .ok p1 ∧ nth p1 i = nth st.p (2 * st.center - i) ∧
      expandLoop (transform s) n i (transform s).length p1 = .ok p1 ∧
      (∀ cnt : Nat, ∃ c : Nat,
        expandLoopC (transform s) n i (transform s).length p1 cnt = .ok (p1, c) ∧ c ≤ cnt + 1) ∧
      scan s = .ok stF ∧ nth stF.p i = nth st.p (2 * st.center - i) := by
  obtain ⟨st0, hst0, hinv, hi1, hi2⟩ := iteration_state s n hn k i hi hk
  have e : st0 = st := by
    rw [hst0] at hst
    exact Except.ok.inj hst
  subst e
  obtain ⟨p1, p2, hseed, hexp, -, -, hlen1, -, hpal1, hmax, -, -, hs1, -, hm, hc1⟩ :=
    scanBody_detail hinv hi1 hi2
  have hp : p2 = p1 := hc1 hr hlt
  subst hp
  obtain ⟨stF, hrun, hinvF⟩ := scan_ok s n hn (by omega)
  have hfit := hinv.fits
  have hsm := hinv.small
  have hreq := hinv.right_eq
  have hcb := (hinv.center_pal (by omega)).2.2.1
  have hm1 := hm hr
  have hval : nth p2 i = nth st0.p (2 * st0.center - i) := by
    rw [hs1 hr]; omega
  refine ⟨wrap32_mirror (by omega) (by omega), wrap32_eq (by omega) (by omega),
    p2, stF, hseed, hval, hexp, fun cnt => ?_, hrun, ?_⟩
  · obtain ⟨c, hc, -, hhi⟩ := expandLoopC_spec (transform s) n i hfit hsm (by omega) (by omega)
      (transform s).length p2 p2 cnt hlen1 hpal1.1 hpal1.2.2.1 hexp
    exact ⟨c, hc, by omega⟩
  · rw [← hval]
    exact (final_maxPal hinvF i (by omega) (by omega)).unique hmax

/-- C19, at the input `"abacaba"` (`n = 15`) in the iteration with index 9: the window is
`center = 7`, `right = 14`, the mirrored index is 5 with `p[5] = 1 < 14 - 9`, so the radius 1
of the mirrored palindrome `"#b#"` is reused and the expand loop leaves the seeded vector
`p[9] = 1` unchanged. -/
theorem mirror_case_one_witness :
    (15 : Int) = wrap32 ((transform "abacaba".toList).length : Int) ∧
    stateAfter (transform "abacaba".toList) 8
      = .ok ⟨[0, 1, 0, 3, 0, 1, 0, 7, 0, 0, 0, 0, 0, 0, 0], 7, 14, 7, 7⟩ ∧
    seed ⟨[0, 1, 0, 3, 0, 1, 0, 7, 0, 0, 0, 0, 0, 0, 0], 7, 14, 7, 7⟩ 9
      = .ok [0, 1, 0, 3, 0, 1, 0, 7, 0, 1, 0, 0, 0, 0, 0] ∧
    nth [0, 1, 0, 3, 0, 1, 0, 7, 0, 0, 0, 0, 0, 0, 0] (2 * 7 - 9) = 1 ∧
    scan "abacaba".toList = .ok ⟨[0, 1, 0, 3, 0, 1, 0, 7, 0, 1, 0, 3, 0, 1, 0], 7, 14, 7, 7⟩ ∧
    (wrap32 (wrap32 (2 * (⟨[0, 1, 0, 3, 0, 1, 0, 7, 0, 0, 0, 0, 0, 0, 0], 7, 14, 7, 7⟩ :
        ScanState).center) - 9)
      = 2 * (⟨[0, 1, 0, 3, 0, 1, 0, 7, 0, 0, 0, 0, 0, 0, 0], 7, 14, 7, 7⟩ : ScanState).center - 9 ∧
    wrap32 ((⟨[0, 1, 0, 3, 0, 1, 0, 7, 0, 0, 0, 0, 0, 0, 0], 7, 14, 7, 7⟩ : ScanState).right - 9)
      = (⟨[0, 1, 0, 3, 0, 1, 0, 7, 0, 0, 0, 0, 0, 0, 0], 7, 14, 7, 7⟩ : ScanState).right - 9 ∧
    ∃ (p1 : List Int) (stF : ScanState),
      seed ⟨[0, 1, 0, 3, 0, 1, 0, 7, 0, 0, 0, 0, 0, 0, 0], 7, 14, 7, 7⟩ 9 = .ok p1 ∧
      nth p1 9 = nth (⟨[0, 1, 0, 3, 0, 1, 0, 7, 0, 0, 0, 0, 0, 0, 0], 7, 14, 7, 7⟩ : ScanState).p
        (2 * (⟨[0, 1, 0, 3, 0, 1, 0, 7, 0, 0, 0, 0, 0, 0, 0], 7, 14, 7, 7⟩ : ScanState).center
          - 9) ∧
      expandLoop (transform "abacaba".toList) 15 9 (transform "abacaba".toList).length p1
        = .ok p1 ∧
      (∀ cnt : Nat, ∃ c : Nat,
        expandLoopC (transform "abacaba".toList) 15 9 (transform "abacaba".toList).length p1 cnt
          = .ok (p1, c) ∧ c ≤ cnt + 1) ∧
      scan "abacaba".toList = .ok stF ∧
      nth stF.p 9 = nth (⟨[0, 1, 0, 3, 0, 1, 0, 7, 0, 0, 0, 0, 0, 0, 0], 7, 14, 7, 7⟩ :
        ScanState).p
        (2 * (⟨[0, 1, 0, 3, 0, 1, 0, 7, 0, 0, 0, 0, 0, 0, 0], 7, 14, 7, 7⟩ : ScanState).center
          - 9)) :=
  ⟨by rfl, by rfl, by rfl, by rfl, by rfl,
    mirror_case_one "abacaba".toList 15 (by rfl) 8 9
      ⟨[0, 1, 0, 3, 0, 1, 0, 7, 0, 0, 0, 0, 0, 0, 0], 7, 14, 7, 7⟩ (by decide) (by decide)
      (by rfl) (by decide) (by decide)⟩

/-- C20. Delimiter collisions are harmless: `manacher` commutes with every injective renaming
of characters. For every injective `f` on characters and every input `s` of any length, the
outcome on `map f s` is the outcome on `s` renamed by `f` (the same exception if the call on
`s` throws, and `map f r` if it returns `r`); this holds also when `s` contains `'#'` or when
`f` maps a character of `s` to `'#'`. For inputs shorter than `2^30` symbols both calls
return. -/
theorem manacher_map_injective (f : Char → Char) (hf : Function.Injective f) (s : List Char) :
    manacher (s.map f) = Except.map (List.map f) (manacher s) ∧
    (s.length < 1073741824 →
      ∃ r, manacher s = .ok r ∧ manacher (s.map f) = .ok (r.map f)) := by
  have hlen : ((transform (s.map f)).length : Int) = ((transform s).length : Int) := by
    rw [transform_length, transform_length, List.length_map]
  have key : manacher (s.map f) = Except.map (List.map f) (manacher s) := by
    by_cases h0 : 0 ≤ wrap32 ((transform s).length : Int)
    · obtain ⟨st, a, L, -, -, -, -, -, m0, m1, m2, m3, m4, m5⟩ :=
        manacher_spec s (wrap32 ((transform s).length : Int)) rfl h0
      obtain ⟨st', a', L', -, -, -, -, -, n0, n1, n2, n3, n4, n5⟩ :=
        manacher_spec (s.map f) (wrap32 ((transform s).length : Int)) (by rw [hlen]) h0
      have n3' := (palIdx_map f hf s a' (a' + L')).mp n3
      have m3' := (palIdx_map f hf s a (a + L)).mpr m3
      have hL : L = L' := by
        have e1 := m4 a' (a' + L') (by omega) (by push_cast; exact n0) n3'
        have e2 := n4 a (a + L) (by omega) (by push_cast; exact m0) m3'
        omega
      subst hL
      have ha : a = a' := le_antisymm (m5 a' n0 n3') (n5 a m0 m3')
      subst ha
      rw [n2, m2, slice_map]
      rfl
    · have hneg : wrap32 ((transform s).length : Int) < 0 := by omega
      rw [(scan_lengthError s hneg).2.2, (scan_lengthError (s.map f) (by rw [hlen]; exact hneg)).2.2]
      rfl
  refine ⟨key, fun hs => ?_⟩
  obtain ⟨st, a, L, -, -, -, -, -, -, m2, -⟩ := manacher_spec_small s hs
  refine ⟨_, m2, ?_⟩
  rw [key, m2]
  rfl

/-- C20, at the renaming that exchanges `'a'` and `'#'` and the input `"#a#b"`, which contains
the delimiter: the result `"#a#"` is renamed to `"a#a"`, the result on the renamed input
`"a#ab"`. -/
theorem manacher_map_injective_witness :
    Function.Injective (Equiv.swap 'a' '#') ∧
    manacher "#a#b".toList = .ok "#a#".toList ∧
    manacher ("#a#b".toList.map (Equiv.swap 'a' '#')) = .ok "a#a".toList ∧
    manacher ("#a#b".toList.map (Equiv.swap 'a' '#'))
      = Except.map (List.map (Equiv.swap 'a' '#')) (manacher "#a#b".toList) :=
  ⟨Equiv.injective _, by rfl, by rfl,
    (manacher_map_injective (Equiv.swap 'a' '#') (Equiv.injective _) "#a#b".toList).1⟩

end Manacher
